import Mathlib

/-!
# Spreadsheet core: `Sheet` and `Cell`

A shallow embedding of `sheet.cpp`, `cell.cpp` and `formula.cpp`.

* Cells live in a store (`Sheet.heap`); a `Cell*` is an index into it. `ClearCell` releases
  the owning pointer without destroying the cell, so a cleared cell stays in the store and the
  adjacency sets of other cells may still point at it.
* `std::unordered_set<Cell*>` is a duplicate-free list; the order in which a range-for walks it
  is a parameter (`Env.order`).
* The formula parser, printer and evaluator (`FormulaAST`) are parameters (`Env`); a parsed
  formula is represented by the expression text it was parsed from.
* A call returns `none` when the fuel is exhausted, otherwise the sheet it leaves behind together
  with how it ended (`Status`).
* `double` is carried as `Int`: the sources do no arithmetic on it, the formula library does.
* `int` is `Int` without wrap-around: rows and columns of valid positions stay below 16384 and
  a counter grows by one per call.
* Reading through a pointer that is not a cell of the store gives a cell as the constructor
  leaves it.
-/

namespace Table

/-! ## Positions, values -/

/-- Cell address of `common.h`: two `int` fields. -/
structure Position where
  row : Int
  col : Int
deriving DecidableEq, Repr

/-- Modelled from the spec: the row limit `Position::MAX_ROWS` of the absent `common.h`. -/
def MAX_ROWS : Int := 16384

/-- Modelled from the spec: the column limit `Position::MAX_COLS` of the absent `common.h`. -/
def MAX_COLS : Int := 16384

/-- Modelled from the spec: `Position::IsValid` of the absent `common.h`,
`0 ≤ row < MAX_ROWS` and `0 ≤ col < MAX_COLS`. -/
def Position.IsValid (p : Position) : Bool :=
  decide (0 ≤ p.row) && decide (p.row < MAX_ROWS) && decide (0 ≤ p.col) && decide (p.col < MAX_COLS)

/-- Modelled from the spec: `Position::operator<` of the absent `common.h`, lexicographic on
(row, col). -/
def Position.lt (a b : Position) : Bool :=
  decide (a.row < b.row) || (decide (a.row = b.row) && decide (a.col < b.col))

/-- The three kinds of `FormulaError::Category`. -/
inductive FormulaError where
  | Ref
  | Value
  | Arithmetic
deriving DecidableEq, Repr

/-- Stand-in for `double`. -/
abbrev Num := Int

/-- The variant `CellInterface::Value`: a string, a number or a formula error. -/
inductive Value where
  | str (s : String)
  | num (d : Num)
  | err (e : FormulaError)
deriving DecidableEq, Repr

/-- `Size` of `common.h`. -/
structure Size where
  rows : Int
  cols : Int
deriving DecidableEq, Repr

/-- What the sources take from outside: the formula library behind `ParseFormulaAST`
(`FormulaAST.h` is absent) and the iteration order of `std::unordered_set`. -/
structure Env where
  /-- Whether `ParseFormulaAST(expression)` returns (rather than throws). -/
  parses : String → Bool
  /-- Output of `ast_.PrintFormula` for the formula parsed from the expression. -/
  printFormula : String → String
  /-- Result of `ast_.GetCells()` for the formula parsed from the expression. -/
  getCells : String → List Position
  /-- Result of `ast_.Execute(sheet)`; the sheet is seen through the value of the cell at each
  position (`none` where `GetCell` is null); a thrown `FormulaError` is `Except.error`. -/
  execute : String → (Position → Option Value) → Except FormulaError Num
  /-- The test `std::isinf`. -/
  isinf : Num → Bool
  /-- Order in which a range-for visits the elements of an unordered set. -/
  order : List Nat → List Nat
  /-- A range-for visits every element once. -/
  order_perm : ∀ l, (order l).Perm l

/-! ## Cells -/

/-- The class hierarchy `Cell::Impl`: `EmptyImpl`, `TextImpl` (`value_`, `text_`) and
`FormulaImpl` (`value_` is the expression text that was parsed, `text_`, `cache_`). -/
inductive Impl where
  | empty
  | text (value_ : String) (text_ : String)
  | formula (value_ : String) (text_ : String) (cache_ : Option Num)
deriving DecidableEq, Repr

/-- Fields of `Cell`: `impl_` (null until the first `Set`), `references_` (the cells that
depend on this one) and `referenced_` (the cells this one depends on). -/
structure Cell where
  impl_ : Option Impl
  references_ : List Nat
  referenced_ : List Nat
deriving DecidableEq, Repr

/-- A cell as `Cell::Cell(Sheet&)` leaves it. -/
def Cell.fresh : Cell := ⟨none, [], []⟩

/-- Fields of `Sheet`, and the store its cell pointers index. -/
structure Sheet where
  sheet_ : List (Position × Nat)
  rows_ : List (Int × Int)
  cols_ : List (Int × Int)
  size_ : Size
  heap : List Cell
deriving DecidableEq, Repr

/-- How a call ended: normally, with one of the three exceptions, or in undefined behaviour
(`std::prev` of the end of an empty map, a null pointer dereferenced). -/
inductive Status where
  | ok
  | InvalidPositionException
  | FormulaException
  | CircularDependencyException
  | undefined
deriving DecidableEq, Repr

/-- The sheet a call leaves behind and how the call ended. -/
structure Outcome where
  st : Sheet
  status : Status
deriving DecidableEq, Repr

/-- A sheet right after construction. -/
def Sheet.empty : Sheet := ⟨[], [], [], ⟨0, 0⟩, []⟩

/-! ## Containers -/

/-- `unordered_set::insert`. -/
def setInsert (l : List Nat) (x : Nat) : List Nat :=
  if x ∈ l then l else l ++ [x]

/-- `unordered_set::erase`. -/
def setErase (l : List Nat) (x : Nat) : List Nat :=
  l.filter (fun y => !decide (y = x))

/-- Arithmetic of `int`: a result outside the 32-bit range wraps around (two's complement). -/
def wrapInt (x : Int) : Int :=
  (x + 2147483648) % 4294967296 - 2147483648

/-- `std::map<int,int>::count`. -/
def mapCount (m : List (Int × Int)) (k : Int) : Bool :=
  (m.lookup k).isSome

/-- Value read by `m[k]` (zero when the key is new). -/
def mapGet (m : List (Int × Int)) (k : Int) : Int :=
  (m.lookup k).getD 0

/-- Assignment `m[k] = v` in a map kept in key order. -/
def mapSet : List (Int × Int) → Int → Int → List (Int × Int)
  | [], k, v => [(k, v)]
  | (k', v') :: rest, k, v =>
    if k < k' then (k, v) :: (k', v') :: rest
    else if k = k' then (k, v) :: rest
    else (k', v') :: mapSet rest k v

/-- `std::map<int,int>::erase`. -/
def mapErase (m : List (Int × Int)) (k : Int) : List (Int × Int) :=
  m.filter (fun e => !decide (e.1 = k))

/-- `sheet_.count(pos)` and `sheet_.at(pos)`: the cell stored at a position. -/
def Sheet.find (s : Sheet) (pos : Position) : Option Nat :=
  s.sheet_.lookup pos

/-- Dereference of a cell pointer. -/
def Sheet.cell (s : Sheet) (id : Nat) : Cell :=
  s.heap.getD id Cell.fresh

/-- Write through a cell pointer. -/
def Sheet.setCellAt (s : Sheet) (id : Nat) (c : Cell) : Sheet :=
  { s with heap := s.heap.set id c }

/-! ## `formula.cpp` -/

/-- `std::sort` on positions, by insertion. -/
def insertSorted (p : Position) : List Position → List Position
  | [] => [p]
  | q :: qs => if Position.lt q p then q :: insertSorted p qs else p :: q :: qs

/-- `std::sort(cells.begin(), cells.end())`. -/
def sortPositions (l : List Position) : List Position :=
  l.foldr insertSorted []

/-- `std::unique` followed by the `resize`: adjacent duplicates are dropped. -/
def uniquePositions : List Position → List Position
  | [] => []
  | [a] => [a]
  | a :: b :: rest => if a = b then uniquePositions (b :: rest) else a :: uniquePositions (b :: rest)

/-- `Formula::GetReferencedCells`: the valid cells of the AST, sorted, without repetition. -/
def Formula.GetReferencedCells (E : Env) (expr : String) : List Position :=
  uniquePositions (sortPositions ((E.getCells expr).filter Position.IsValid))

/-! ## `cell.cpp` -/

/-- `text.substr(1)`. -/
def substr1 (text : String) : String :=
  String.mk (text.data.drop 1)

/-- The apostrophe. -/
def apostrophe : Char := Char.ofNat 39

/-- First part of `Cell::Set`: the new `Impl` built from the text; `none` when the
`FormulaImpl` constructor throws `FormulaException`. -/
def Cell.makeImpl (E : Env) (text : String) : Option Impl :=
  if text.length = 0 then some Impl.empty
  else if text.data.head? = some '=' ∧ text.length > 1 then
    if E.parses (substr1 text) then
      some (Impl.formula (substr1 text) ("=" ++ E.printFormula (substr1 text)) none)
    else none
  else if text.data.head? = some apostrophe then some (Impl.text (substr1 text) text)
  else some (Impl.text text text)

/-- `Impl::GetReferencedCells`: empty except for a formula. -/
def Impl.GetReferencedCells (E : Env) : Impl → List Position
  | Impl.formula v _ _ => Formula.GetReferencedCells E v
  | _ => []

/-- `Impl::GetText`. -/
def Impl.GetText : Impl → String
  | Impl.empty => ""
  | Impl.text _ t => t
  | Impl.formula _ t _ => t

/-- `Impl::InvalidateCache`: `cache_.reset()` for a formula, nothing otherwise. -/
def Impl.InvalidateCache : Impl → Impl
  | Impl.formula v t _ => Impl.formula v t none
  | i => i

/-- `cell->impl_->InvalidateCache()` through a cell pointer. -/
def Sheet.dropCache (s : Sheet) (id : Nat) : Sheet :=
  s.setCellAt id { s.cell id with impl_ := (s.cell id).impl_.map Impl.InvalidateCache }

/-- `Cell::GetText` of the cell behind a pointer (`none`: `impl_` is null). -/
def Cell.GetText (c : Cell) : Option String :=
  c.impl_.map Impl.GetText

/-- `Cell::GetReferencedCells` (`none`: `impl_` is null). -/
def Cell.GetReferencedCells (E : Env) (c : Cell) : Option (List Position) :=
  c.impl_.map (Impl.GetReferencedCells E)

/-- `Cell::IsReferenced`. -/
def Cell.IsReferenced (c : Cell) : Bool :=
  if c.referenced_.length = 0 then false else true

/-- `Cell::Clear`. -/
def Cell.Clear (c : Cell) : Cell :=
  { c with impl_ := some Impl.empty }

/-- The test `cell->references_.size() != 0`. -/
def Sheet.hasDependents (s : Sheet) (cell : Nat) : Bool :=
  decide ((s.cell cell).references_.length ≠ 0)

/-- The range-for of `Cell::IsCircularDependency` over the dependents of the front cell, with
the visited set and the deque; `Sum.inl` is the early `return` with the cell then at the front
of the deque. -/
def visitDependents (s : Sheet) : List Nat → List Nat → List Nat → Sum (Option Nat) (List Nat × List Nat)
  | [], visited, have_to_visit => Sum.inr (visited, have_to_visit)
  | cell :: rest, visited, have_to_visit =>
    if cell ∈ visited then Sum.inl have_to_visit.head?
    else
      visitDependents s rest (cell :: visited)
        (if s.hasDependents cell then cell :: have_to_visit else have_to_visit)

/-- The `while` loop of `Cell::IsCircularDependency`. -/
def circularLoop (E : Env) (s : Sheet) : Nat → List Nat → List Nat → Option (Bool × Option Nat)
  | 0, _, _ => none
  | fuel + 1, visited, have_to_visit =>
    match have_to_visit with
    | [] => some (false, none)
    | front :: _ =>
      match visitDependents s (E.order (s.cell front).references_) visited have_to_visit with
      | Sum.inl culprit => some (true, culprit)
      | Sum.inr (visited', have_to_visit') => circularLoop E s fuel visited' have_to_visit'.dropLast

/-- `Cell::IsCircularDependency` (its argument `new_impl` is not used by the body). -/
def Cell.IsCircularDependency (E : Env) (fuel : Nat) (s : Sheet) (self : Nat) : Option (Bool × Option Nat) :=
  circularLoop E s fuel [self] [self]

/-- The inner loops of `Cell::InvalidateCache`: for each dependency, reset its cache and push
its own dependencies on the deque. -/
def invalidateBody (E : Env) : List Nat → Sheet → List Nat → Sheet × List Nat
  | [], s, have_to_visit => (s, have_to_visit)
  | cell :: rest, s, have_to_visit =>
    invalidateBody E rest (s.dropCache cell)
      (if (s.cell cell).referenced_.length ≠ 0 then
        (E.order (s.cell cell).referenced_).reverse ++ have_to_visit
      else have_to_visit)

/-- The `while` loop of `Cell::InvalidateCache`. -/
def invalidateLoop (E : Env) (self : Nat) : Nat → Sheet → List Nat → Option Sheet
  | 0, _, _ => none
  | fuel + 1, s, have_to_visit =>
    if have_to_visit.length ≠ 0 then
      let r := invalidateBody E (E.order (s.cell self).referenced_) s have_to_visit
      invalidateLoop E self fuel r.1 r.2.dropLast
    else some s

/-- `Cell::InvalidateCache`. -/
def Cell.InvalidateCache (E : Env) (fuel : Nat) (s : Sheet) (self : Nat) : Option Sheet :=
  if (s.cell self).impl_ = none then some s
  else invalidateLoop E self fuel (s.dropCache self) [self]

/-! ## `sheet.cpp` -/

/-- `Sheet::GetCell` (both overloads): the pointer stored at the position, or null. -/
def GetCell (s : Sheet) (pos : Position) : Except Status (Option Nat) :=
  if !pos.IsValid then Except.error Status.InvalidPositionException
  else Except.ok (s.find pos)

/-- Key of the last entry of a map (`std::prev(m.end())`) less the key before it less one, or
the key itself when the last entry is also the first; `none` when the map is empty. -/
def emptyBefore (m : List (Int × Int)) : Option Int :=
  match m.reverse with
  | [] => none
  | [last] => some last.1
  | last :: before :: _ => some (last.1 - before.1 - 1)

/-- The `not_edge` branch of `Sheet::ClearCell`: both counters are decremented, a counter
that reached zero is erased, the cell is taken out of the map (and not destroyed). -/
def Sheet.clearInside (s : Sheet) (pos : Position) : Sheet :=
  let rows1 := mapSet s.rows_ pos.row (wrapInt (mapGet s.rows_ pos.row - 1))
  let cols1 := mapSet s.cols_ pos.col (wrapInt (mapGet s.cols_ pos.col - 1))
  { s with
    rows_ := if mapGet rows1 pos.row = 0 then mapErase rows1 pos.row else rows1
    cols_ := if mapGet cols1 pos.col = 0 then mapErase cols1 pos.col else cols1
    sheet_ := s.sheet_.filter (fun e => !decide (e.1 = pos)) }

/-- The other branch of `Sheet::ClearCell`, with `empty_rows` and `empty_cols` as computed
before it. -/
def Sheet.clearEdge (s : Sheet) (pos : Position) (empty_rows empty_cols : Int) : Sheet :=
  { s with
    size_ :=
      ⟨if mapGet s.rows_ pos.row = 1 then s.size_.rows - (empty_rows + 1)
       else s.size_.rows - empty_rows,
       if mapGet s.cols_ pos.col = 1 then s.size_.cols - (empty_cols + 1)
       else s.size_.cols - empty_rows⟩
    rows_ := if mapGet s.rows_ pos.row = 1 then mapErase s.rows_ pos.row
             else mapSet s.rows_ pos.row (wrapInt (mapGet s.rows_ pos.row - 1))
    cols_ := if mapGet s.cols_ pos.col = 1 then mapErase s.cols_ pos.col
             else mapSet s.cols_ pos.col (wrapInt (mapGet s.cols_ pos.col - 1))
    sheet_ := s.sheet_.filter (fun e => !decide (e.1 = pos)) }

/-- `Sheet::ClearCell`. -/
def ClearCell (s : Sheet) (pos : Position) : Outcome :=
  if !pos.IsValid then ⟨s, Status.InvalidPositionException⟩
  else if (s.find pos).isNone then ⟨s, Status.ok⟩
  else
    match emptyBefore s.rows_, emptyBefore s.cols_ with
    | some empty_rows, some empty_cols =>
      if decide (pos.row + 1 < s.size_.rows) && decide (pos.col + 1 < s.size_.cols) then
        ⟨s.clearInside pos, Status.ok⟩
      else ⟨s.clearEdge pos empty_rows empty_cols, Status.ok⟩
    | _, _ => ⟨s, Status.undefined⟩

/-- Modelled from the spec: `Sheet::DeleteCell`, called by `Cell::Set` and declared nowhere in
the sources at hand; the spec removes a placeholder by calling `ClearCell` on it. -/
def DeleteCell (s : Sheet) (pos : Position) : Outcome :=
  ClearCell s pos

/-- `Sheet::GetPrintableSize`. -/
def GetPrintableSize (s : Sheet) : Size :=
  s.size_

/-- The two statements of `Cell::Set` that link the cell to one dependency:
`referenced_.insert(cell_ptr); cell_ptr->references_.insert(this)`. -/
def linkCells (s : Sheet) (self cell_ptr : Nat) : Sheet :=
  let s1 := s.setCellAt self { s.cell self with referenced_ := setInsert (s.cell self).referenced_ cell_ptr }
  s1.setCellAt cell_ptr { s1.cell cell_ptr with references_ := setInsert (s1.cell cell_ptr).references_ self }

/-- The first loop of `Cell::Set`, over the positions the new content refers to; carries
`just_created` and `erase_pos`. A status other than `ok` is an exception leaving the loop. -/
def linkReferenced (setCell : Sheet → Position → String → Option Outcome) (self : Nat) :
    List Position → Sheet → Bool → Position → Option (Outcome × Bool × Position)
  | [], s, just_created, erase_pos => some (⟨s, Status.ok⟩, just_created, erase_pos)
  | pos :: rest, s, just_created, erase_pos =>
    match GetCell s pos with
    | Except.error e => some (⟨s, e⟩, just_created, erase_pos)
    | Except.ok (some cell_ptr) =>
      linkReferenced setCell self rest (linkCells s self cell_ptr) just_created erase_pos
    | Except.ok none =>
      match setCell s pos "" with
      | none => none
      | some o =>
        if o.status ≠ Status.ok then some (o, true, pos)
        else
          match GetCell o.st pos with
          | Except.ok (some cell_ptr) =>
            linkReferenced setCell self rest (linkCells o.st self cell_ptr) true pos
          | _ => some (⟨o.st, Status.undefined⟩, true, pos)

/-- The branch of `Cell::Set` taken when `IsCircularDependency` reports a cycle. -/
def Cell.rollback (s : Sheet) (self : Nat) (just_created : Bool) (erase_pos : Position)
    (cell_to_erase_reference : Option Nat) : Outcome :=
  if just_created then
    match GetCell s erase_pos with
    | Except.ok (some to_erase) =>
      let s1 := s.setCellAt self { s.cell self with referenced_ := setErase (s.cell self).referenced_ to_erase }
      let s2 := s1.setCellAt to_erase (s1.cell to_erase).Clear
      let o := DeleteCell s2 erase_pos
      if o.status = Status.ok then ⟨o.st, Status.CircularDependencyException⟩ else o
    | Except.ok none => ⟨s, Status.undefined⟩
    | Except.error e => ⟨s, e⟩
  else
    match cell_to_erase_reference with
    | some c =>
      let s1 := s.setCellAt self { s.cell self with referenced_ := setErase (s.cell self).referenced_ c }
      let s2 := s1.setCellAt c { s1.cell c with references_ := setErase (s1.cell c).references_ self }
      ⟨s2, Status.CircularDependencyException⟩
    | none => ⟨s, Status.undefined⟩

/-- `Cell::Set` on the cell behind the pointer `self`; `setCell` is `Sheet::SetCell`, which the
body calls to create missing cells. -/
def Cell.Set (E : Env) (setCell : Sheet → Position → String → Option Outcome) (fuel : Nat)
    (s : Sheet) (self : Nat) (text : String) : Option Outcome :=
  match Cell.makeImpl E text with
  | none => some ⟨s, Status.FormulaException⟩
  | some impl =>
    match linkReferenced setCell self (impl.GetReferencedCells E) s false ⟨0, 0⟩ with
    | none => none
    | some (o, just_created, erase_pos) =>
      if o.status ≠ Status.ok then some o
      else
        match Cell.IsCircularDependency E fuel o.st self with
        | none => none
        | some (true, culprit) => some (Cell.rollback o.st self just_created erase_pos culprit)
        | some (false, _) =>
          if (o.st.cell self).IsReferenced then
            match Cell.InvalidateCache E fuel o.st self with
            | none => none
            | some s2 => some ⟨s2.setCellAt self { s2.cell self with impl_ := some impl }, Status.ok⟩
          else some ⟨o.st.setCellAt self { o.st.cell self with impl_ := some impl }, Status.ok⟩

/-- The tail of `Sheet::SetCell`: the printable size and the two counters, which are `int`s
and are incremented whether or not the position already held a cell. -/
def Sheet.bookkeep (s : Sheet) (pos : Position) : Sheet :=
  { s with
    size_ := ⟨if pos.row + 1 ≥ s.size_.rows then pos.row + 1 else s.size_.rows,
              if pos.col + 1 ≥ s.size_.cols then pos.col + 1 else s.size_.cols⟩
    cols_ := if !mapCount s.cols_ pos.col then mapSet s.cols_ pos.col 1
             else mapSet s.cols_ pos.col (wrapInt (mapGet s.cols_ pos.col + 1))
    rows_ := if !mapCount s.rows_ pos.row then mapSet s.rows_ pos.row 1
             else mapSet s.rows_ pos.row (wrapInt (mapGet s.rows_ pos.row + 1)) }

/-- Destruction of the local `cell_ptr` of `Sheet::SetCell` when an exception leaves the
function. The most recent allocation is given back. An older one (placeholders were created
after it) keeps its slot: the source frees the cell while the cells it was linked to still
point to it, and here those pointers stay on a slot that is never handed out again, so nothing
is said of a later allocation that reuses the address. -/
def Sheet.release (s : Sheet) (id : Nat) : Sheet :=
  if id + 1 = s.heap.length then { s with heap := s.heap.dropLast } else s

/-- `std::make_unique<Cell>(*this)`: a new cell at the end of the store. -/
def Sheet.alloc (s : Sheet) : Sheet :=
  { s with heap := s.heap ++ [Cell.fresh] }

/-- `sheet_[pos] = std::move(cell_ptr)` for a position not yet in the map. -/
def Sheet.install (s : Sheet) (pos : Position) (id : Nat) : Sheet :=
  { s with sheet_ := s.sheet_ ++ [(pos, id)] }

/-- `Sheet::SetCell`. -/
def SetCell (E : Env) : Nat → Sheet → Position → String → Option Outcome
  | 0, _, _, _ => none
  | fuel + 1, s, pos, text =>
    if !pos.IsValid then some ⟨s, Status.InvalidPositionException⟩
    else
      match s.find pos with
      | some id =>
        match Cell.Set E (fun s' p t => SetCell E fuel s' p t) fuel s id text with
        | none => none
        | some o => if o.status = Status.ok then some ⟨o.st.bookkeep pos, Status.ok⟩ else some o
      | none =>
        let id := s.heap.length
        match Cell.Set E (fun s' p t => SetCell E fuel s' p t) fuel s.alloc id text with
        | none => none
        | some o =>
          if o.status ≠ Status.ok then some ⟨o.st.release id, o.status⟩
          else if (o.st.find pos).isSome then
            let c := ClearCell o.st pos
            some ⟨c.st.release id,
              if c.status = Status.ok then Status.CircularDependencyException else c.status⟩
          else some ⟨(o.st.install pos id).bookkeep pos, Status.ok⟩

/-! ## Values -/

/-- `Formula::Evaluate`: the result of `Execute`, an infinite result turned into the arithmetic
error, a thrown `FormulaError` returned as a value. -/
def Formula.Evaluate (E : Env) (expr : String) (view : Position → Option Value) :
    Except FormulaError Num :=
  match E.execute expr view with
  | Except.ok val => if E.isinf val then Except.error FormulaError.Arithmetic else Except.ok val
  | Except.error exc => Except.error exc

/-- The reads `Execute` makes of the sheet: the value of the cell at each referenced position,
taken in turn (each read may fill caches); a position without a cell is left out. -/
def readReferenced (getValue : Sheet → Nat → Option (Option Value × Sheet)) :
    List Position → Sheet → List (Position × Value) → Option (Sheet × List (Position × Value))
  | [], s, table => some (s, table)
  | pos :: rest, s, table =>
    match s.find pos with
    | none => readReferenced getValue rest s table
    | some cell_ptr =>
      match getValue s cell_ptr with
      | none => none
      | some (some v, s1) => readReferenced getValue rest s1 (table ++ [(pos, v)])
      | some (none, s1) => readReferenced getValue rest s1 table

/-- `Cell::GetValue` on the cell behind a pointer, with `FormulaImpl::GetValue` filling the
cache when the result is a number. The value is `none` when `impl_` is null. -/
def Cell.GetValue (E : Env) : Nat → Sheet → Nat → Option (Option Value × Sheet)
  | 0, _, _ => none
  | fuel + 1, s, id =>
    match (s.cell id).impl_ with
    | none => some (none, s)
    | some Impl.empty => some (some (Value.str ""), s)
    | some (Impl.text v _) => some (some (Value.str v), s)
    | some (Impl.formula _ _ (some d)) => some (some (Value.num d), s)
    | some (Impl.formula v t none) =>
      match readReferenced (fun s' c => Cell.GetValue E fuel s' c)
          (Formula.GetReferencedCells E v) s [] with
      | none => none
      | some (s1, table) =>
        match Formula.Evaluate E v (fun p => table.lookup p) with
        | Except.ok d =>
          some (some (Value.num d),
            s1.setCellAt id { s1.cell id with impl_ := some (Impl.formula v t (some d)) })
        | Except.error e => some (some (Value.err e), s1)

/-- `GetCell(pos)->GetText()`; `none` when no cell is stored at the position. -/
def Sheet.GetText (s : Sheet) (pos : Position) : Option String :=
  (s.find pos).bind (fun id => (s.cell id).GetText)

/-- `GetCell(pos)->GetValue()`: value and sheet afterwards; the value is `none` when no cell is
stored at the position. -/
def Sheet.GetValue (E : Env) (fuel : Nat) (s : Sheet) (pos : Position) : Option (Option Value × Sheet) :=
  match s.find pos with
  | none => some (none, s)
  | some id => Cell.GetValue E fuel s id

/-- `GetCell(pos)->GetReferencedCells()`; `none` when no cell is stored at the position. -/
def Sheet.GetReferencedCells (E : Env) (s : Sheet) (pos : Position) : Option (List Position) :=
  (s.find pos).bind (fun id => (s.cell id).GetReferencedCells E)

/-! ## A formula library for sums

The formula library is absent from the sources. For the worked scenarios the parameter is
instantiated with a library for the fragment `term + ... + term`, a term being a cell name
(`A1`) or a decimal natural number. -/

/-- A term of a sum. -/
inductive Demo.Term where
  | cell (p : Position)
  | lit (n : Nat)
deriving DecidableEq, Repr

/-- Modelled from the spec: the column letters of the absent `Position::FromString`, a
bijective base-26 numeral (`A` is 1 here, the column index is one less). -/
def Demo.letters : List Char → Nat → Option Nat
  | [], acc => some acc
  | c :: cs, acc => if c.isUpper then Demo.letters cs (acc * 26 + (c.toNat - 64)) else none

/-- Decimal digits read as a natural number. -/
def Demo.digits : List Char → Nat → Option Nat
  | [], acc => some acc
  | c :: cs, acc => if c.isDigit then Demo.digits cs (acc * 10 + (c.toNat - 48)) else none

/-- A decimal natural without a leading zero (the single digit `0` apart). -/
def Demo.number (cs : List Char) : Option Nat :=
  match cs with
  | [] => none
  | ['0'] => some 0
  | '0' :: _ => none
  | _ => Demo.digits cs 0

/-- Modelled from the spec: the absent `Position::FromString`, letters for the column then the
1-based row number. -/
def Demo.position (cs : List Char) : Option Position :=
  let ls := cs.takeWhile Char.isUpper
  let ds := cs.dropWhile Char.isUpper
  match ls, Demo.letters ls 0, Demo.number ds with
  | _ :: _, some c, some (r + 1) => some ⟨r, (c : Int) - 1⟩
  | _, _, _ => none

/-- One term: a cell name or a number. -/
def Demo.term (cs : List Char) : Option Demo.Term :=
  match Demo.position cs with
  | some p => some (Demo.Term.cell p)
  | none => (Demo.number cs).map Demo.Term.lit

/-- The pieces between the plus signs. -/
def Demo.splitPlus : List Char → List Char → List (List Char)
  | [], cur => [cur.reverse]
  | c :: cs, cur => if c = '+' then cur.reverse :: Demo.splitPlus cs [] else Demo.splitPlus cs (c :: cur)

/-- Modelled from the spec: the absent `ParseFormulaAST`, restricted to sums of terms; blanks
are skipped. -/
def Demo.parse (expr : String) : Option (List Demo.Term) :=
  (Demo.splitPlus (expr.data.filter (fun c => decide (c ≠ ' '))) []).mapM Demo.term

/-- Value of a cell as an operand: an empty text is zero, a text that is a number is that
number, other text is the value error, an error is passed on. -/
def Demo.operand : Option Value → Except FormulaError Num
  | none => Except.ok 0
  | some (Value.num d) => Except.ok d
  | some (Value.err e) => Except.error e
  | some (Value.str t) =>
    if t.length = 0 then Except.ok 0
    else match Demo.number t.data with
      | some n => Except.ok (n : Int)
      | none => Except.error FormulaError.Value

/-- Sum of the terms, the first error winning. -/
def Demo.sum (view : Position → Option Value) : List Demo.Term → Except FormulaError Num
  | [] => Except.ok 0
  | Demo.Term.lit n :: rest =>
    match Demo.sum view rest with
    | Except.ok r => Except.ok ((n : Int) + r)
    | Except.error e => Except.error e
  | Demo.Term.cell p :: rest =>
    match Demo.operand (view p), Demo.sum view rest with
    | Except.ok d, Except.ok r => Except.ok (d + r)
    | Except.error e, _ => Except.error e
    | _, Except.error e => Except.error e

/-- The cells of a sum, in order of appearance. -/
def Demo.cells : List Demo.Term → List Position
  | [] => []
  | Demo.Term.cell p :: rest => p :: Demo.cells rest
  | Demo.Term.lit _ :: rest => Demo.cells rest

/-- Modelled from the spec: the absent formula library (`ParseFormulaAST`, `PrintFormula`,
`GetCells`, `Execute`) for sums of cell names and natural numbers; sets are walked in
insertion order. -/
def Demo.env : Env where
  parses expr := (Demo.parse expr).isSome
  printFormula expr := String.mk (expr.data.filter (fun c => decide (c ≠ ' ')))
  getCells expr := match Demo.parse expr with
    | some ts => Demo.cells ts
    | none => []
  execute expr view := match Demo.parse expr with
    | some ts => Demo.sum view ts
    | none => Except.error FormulaError.Value
  isinf _ := false
  order l := l
  order_perm l := List.Perm.refl l

/-- Position `A1`. -/
def A1 : Position := ⟨0, 0⟩
/-- Position `A2`. -/
def A2 : Position := ⟨1, 0⟩
/-- Position `A3`. -/
def A3 : Position := ⟨2, 0⟩
/-- Position `B1`. -/
def B1 : Position := ⟨0, 1⟩
/-- Position `B2`. -/
def B2 : Position := ⟨1, 1⟩
/-- Position `C1`. -/
def C1 : Position := ⟨0, 2⟩

/-- A user request on the sheet. -/
inductive Op where
  | set (pos : Position) (text : String)
  | clear (pos : Position)
deriving DecidableEq, Repr

/-- Run one request. -/
def Op.run (E : Env) (fuel : Nat) (s : Sheet) : Op → Option Outcome
  | Op.set pos text => SetCell E fuel s pos text
  | Op.clear pos => some (ClearCell s pos)

/-- Run requests one after the other, whatever their status, and keep the statuses; `none`
when a request does not return within the fuel. -/
def runOps (E : Env) (fuel : Nat) : Sheet → List Op → Option (Sheet × List Status)
  | s, [] => some (s, [])
  | s, op :: rest =>
    match op.run E fuel s with
    | none => none
    | some o => (runOps E fuel o.st rest).map (fun r => (r.1, o.status :: r.2))

/-- Scenario 1 of the specification: `A1 = 2`, `A2 = 3`, `A3 = A1 + A2`. -/
def scenario1 : List Op :=
  [Op.set A1 "2", Op.set A2 "3", Op.set A3 "=A1+A2"]

/-- The rectangle the specification asks of `GetPrintableSize`: one more than the largest
row and the largest column of a stored cell, `(0, 0)` when nothing is stored. -/
def Sheet.occupiedBox (s : Sheet) : Size :=
  match s.sheet_ with
  | [] => ⟨0, 0⟩
  | e :: rest =>
    ⟨1 + rest.foldl (fun m x => max m x.1.row) e.1.row,
     1 + rest.foldl (fun m x => max m x.1.col) e.1.col⟩

/-- Sheets reached from the empty sheet by `SetCell` and `ClearCell` calls that returned,
however they ended. -/
inductive Reach (E : Env) : Sheet → Prop where
  | empty : Reach E Sheet.empty
  | step (s : Sheet) (op : Op) (fuel : Nat) (o : Outcome) :
      Reach E s → op.run E fuel s = some o → Reach E o.st

/-- Two sheets that differ at most in the memoized values of formula cells. -/
def Sheet.SameUpToCache (s s' : Sheet) : Prop :=
  s'.sheet_ = s.sheet_ ∧ s'.rows_ = s.rows_ ∧ s'.cols_ = s.cols_ ∧ s'.size_ = s.size_ ∧
  s'.heap.length = s.heap.length ∧
  ∀ i, (s'.cell i).references_ = (s.cell i).references_ ∧
    (s'.cell i).referenced_ = (s.cell i).referenced_ ∧
    (s'.cell i).impl_.map Impl.InvalidateCache = (s.cell i).impl_.map Impl.InvalidateCache

/-- The second sheet keeps every cell of the store of the first, and each position it stores
holds the pointer it held in the first or a pointer allocated since. -/
def Sheet.Extends (s s' : Sheet) : Prop :=
  s.heap.length ≤ s'.heap.length ∧
  ∀ q i, s'.find q = some i → s.find q = some i ∨ (s.heap.length ≤ i ∧ i < s'.heap.length)

/-- Every stored pointer is a cell of the store. -/
def Sheet.PointersLive (s : Sheet) : Prop :=
  ∀ q i, s.find q = some i → i < s.heap.length

/-- The value a text cell holds for the text `t`: `t` without its first character when that is
an apostrophe, `t` itself otherwise. -/
def textValue (t : String) : String :=
  if t.data.head? = some apostrophe then substr1 t else t

/-- The `Impl` that `Cell::Set` builds for a text that is not a formula. -/
def plainImpl (t : String) : Impl :=
  if t.length = 0 then Impl.empty else Impl.text (textValue t) t

/-- The sheet after `SetCell(A1, "'=1+1")` on the empty sheet (scenario 5 of the
specification). -/
def quotedSheet : Sheet :=
  ⟨[(A1, 0)], [(0, 1)], [(0, 1)], ⟨1, 1⟩, [⟨some (Impl.text "=1+1" "'=1+1"), [], []⟩]⟩

/-- Two sheets with the same map of positions, counters and printable size (the stores may
differ). -/
def Sheet.SameTable (s s' : Sheet) : Prop :=
  s'.sheet_ = s.sheet_ ∧ s'.rows_ = s.rows_ ∧ s'.cols_ = s.cols_ ∧ s'.size_ = s.size_

/-- The sheet `SetCell(pos, "")` leaves when `pos` holds no cell: a new Empty cell, installed
and counted. -/
def placeholder (s : Sheet) (pos : Position) : Sheet :=
  ((s.alloc.setCellAt s.heap.length { Cell.fresh with impl_ := some Impl.empty }).install pos
    s.heap.length).bookkeep pos

/-- What the first loop of `Cell::Set` computes when each nested `SetCell(pos, "")` returns:
the sheet, `just_created` and `erase_pos`. -/
def linkAll (self : Nat) : List Position → Sheet → Bool → Position → Sheet × Bool × Position
  | [], s, just_created, erase_pos => (s, just_created, erase_pos)
  | pos :: rest, s, just_created, erase_pos =>
    match s.find pos with
    | some cell_ptr => linkAll self rest (linkCells s self cell_ptr) just_created erase_pos
    | none => linkAll self rest (linkCells (placeholder s pos) self s.heap.length) true pos

/-- Sheets built from the empty sheet by `SetCell` calls that returned normally. -/
inductive ReachSet (E : Env) : Sheet → Prop where
  | empty : ReachSet E Sheet.empty
  | step (s : Sheet) (p : Position) (t : String) (fuel : Nat) (s' : Sheet) :
      ReachSet E s → SetCell E fuel s p t = some ⟨s', Status.ok⟩ → ReachSet E s'

/-- The cell stored at `a` lists `b` in its `GetReferencedCells()`. -/
def Sheet.RefersTo (E : Env) (s : Sheet) (a b : Position) : Prop :=
  ∃ l, s.GetReferencedCells E a = some l ∧ b ∈ l

/-- The cell at `a` depends on the cell at `b`, directly or through other cells. -/
def Sheet.DependsOn (E : Env) (s : Sheet) (a b : Position) : Prop :=
  Relation.TransGen (s.RefersTo E) a b

/-- How a sheet may change while a `SetCell` call that returns normally runs, up to the moment
the new content is committed: the store grows, stored positions keep their pointer, a position
stored since holds a new Empty cell of its own, and an old cell keeps its dependents and its
content (memoized value apart). -/
def Sheet.Grows (s s' : Sheet) : Prop :=
  s.heap.length ≤ s'.heap.length ∧
  (∀ q i, s.find q = some i → s'.find q = some i) ∧
  (∀ q i, s'.find q = some i → s.find q = some i ∨
    (s.find q = none ∧ s.heap.length ≤ i ∧ i < s'.heap.length ∧
      (s'.cell i).impl_ = some Impl.empty ∧ ∀ b, s'.find b = some i → b = q)) ∧
  (∀ i, i < s.heap.length →
    (∀ x ∈ (s.cell i).references_, x ∈ (s'.cell i).references_) ∧
    (s'.cell i).impl_.map Impl.InvalidateCache = (s.cell i).impl_.map Impl.InvalidateCache)

/-- Some cell reached from `self` along the dependents sets has `self` among its dependents:
the graph `IsCircularDependency` walks has a cycle through `self`. -/
def Sheet.CycleThrough (s : Sheet) (self : Nat) : Prop :=
  ∃ v, Relation.ReflTransGen (fun x y => y ∈ (s.cell x).references_) self v ∧
    self ∈ (s.cell v).references_

/-- Every entry of every dependents set of the store. -/
def Sheet.allDependents (s : Sheet) : List Nat :=
  (s.heap.map Cell.references_).flatten

/-- What holds of every sheet built by `SetCell` calls that returned normally: stored
pointers are cells of the store, two positions never share a cell, and when the cell stored at
`a` refers to `b`, a cell is stored at `b` and lists the cell of `a` among its dependents. -/
def Sheet.Linked (E : Env) (s : Sheet) : Prop :=
  s.PointersLive ∧
  (∀ a b i, s.find a = some i → s.find b = some i → a = b) ∧
  (∀ a ia impl b, s.find a = some ia → (s.cell ia).impl_ = some impl →
    b ∈ impl.GetReferencedCells E →
    ∃ ib, s.find b = some ib ∧ ia ∈ (s.cell ib).references_)

/-- The sheet a list of requests leaves when run from the empty sheet (the empty sheet when a
request does not return within the fuel). -/
def sheetAfter (E : Env) (fuel : Nat) (ops : List Op) : Sheet :=
  match runOps E fuel Sheet.empty ops with
  | some r => r.1
  | none => Sheet.empty

/-! ## Printing -/

/-- `operator<<(std::ostream&, FormulaError)` of `formula.cpp`: what it writes. -/
def FormulaError.print (_fe : FormulaError) : String :=
  "#ARITHM!"

/-- The `std::visit` of `Sheet::PrintValues`: what `output << arg` writes for each alternative
of the value; `showNum` is the stream's rendering of a `double`. -/
def Value.print (showNum : Num → String) : Value → String
  | Value.str s => s
  | Value.num d => showNum d
  | Value.err e => e.print

/-- Key of `std::prev(m.end())` for a map that is not empty, and zero (the initial value of
`max_row` and `max_col`) for an empty one. -/
def maxKey (m : List (Int × Int)) : Int :=
  match m.getLast? with
  | some e => e.1
  | none => 0

/-- What `Sheet::PrintTexts` writes for one position: the text of the cell stored there, or
nothing. -/
def Sheet.textField (s : Sheet) (pos : Position) : String :=
  match s.find pos with
  | some id => ((s.cell id).GetText).getD ""
  | none => ""

/-- The inner loop of `Sheet::PrintTexts` for one row, with the newline that follows it. -/
def Sheet.printTextsRow (s : Sheet) (row max_col : Int) : String :=
  (List.range (max_col + 1).toNat).foldl
    (fun out col => out ++ s.textField ⟨row, (col : Int)⟩ ++
      (if max_col ≠ (col : Int) then "\t" else "")) "" ++ "\n"

/-- `Sheet::PrintTexts`: what it writes to the stream. -/
def Sheet.PrintTexts (s : Sheet) : String :=
  if s.sheet_.length = 0 then ""
  else if s.rows_.length = 0 ∧ s.cols_.length = 0 then s.textField ⟨0, 0⟩ ++ "\n"
  else
    (List.range (maxKey s.rows_ + 1).toNat).foldl
      (fun out row => out ++ s.printTextsRow (row : Int) (maxKey s.cols_)) ""

/-- What `Sheet::PrintValues` writes for one position, and the sheet after the read (a read
may fill caches); `none` when `GetValue` does not return within the fuel. -/
def Sheet.valueField (E : Env) (showNum : Num → String) (fuel : Nat) (s : Sheet)
    (pos : Position) : Option (String × Sheet) :=
  match s.find pos with
  | none => some ("", s)
  | some id =>
    match Cell.GetValue E fuel s id with
    | none => none
    | some (some v, s1) => some (v.print showNum, s1)
    | some (none, s1) => some ("", s1)

/-- The inner loop of `Sheet::PrintValues` over the columns of one row. -/
def printValuesCols (E : Env) (showNum : Num → String) (fuel : Nat) (row max_col : Int) :
    List Nat → Sheet → String → Option (String × Sheet)
  | [], s, out => some (out, s)
  | col :: rest, s, out =>
    match s.valueField E showNum fuel ⟨row, (col : Int)⟩ with
    | none => none
    | some (field, s1) =>
      printValuesCols E showNum fuel row max_col rest s1
        (out ++ field ++ (if max_col ≠ (col : Int) then "\t" else ""))

/-- The outer loop of `Sheet::PrintValues` over the rows. -/
def printValuesRows (E : Env) (showNum : Num → String) (fuel : Nat) (max_col : Int) :
    List Nat → Sheet → String → Option (String × Sheet)
  | [], s, out => some (out, s)
  | row :: rest, s, out =>
    match printValuesCols E showNum fuel (row : Int) max_col
        (List.range (max_col + 1).toNat) s out with
    | none => none
    | some (out1, s1) => printValuesRows E showNum fuel max_col rest s1 (out1 ++ "\n")

/-- `Sheet::PrintValues`: what it writes to the stream and the sheet afterwards. -/
def Sheet.PrintValues (E : Env) (showNum : Num → String) (fuel : Nat) (s : Sheet) :
    Option (String × Sheet) :=
  if s.sheet_.length = 0 then some ("", s)
  else if s.rows_.length = 0 ∧ s.cols_.length = 0 then
    match s.valueField E showNum fuel ⟨0, 0⟩ with
    | none => none
    | some (field, s1) => some (field ++ "\n", s1)
  else
    printValuesRows E showNum fuel (maxKey s.cols_) (List.range (maxKey s.rows_ + 1).toNat) s ""

/-- Decimal rendering of the stand-in for `double`, for the worked scenarios. -/
def Demo.showNum (d : Num) : String :=
  if d < 0 then "-" ++ Nat.repr d.natAbs else Nat.repr d.natAbs

/-- The formula library `Demo.env` with the sets walked in the opposite order. -/
def Demo.envRev : Env :=
  { Demo.env with order := List.reverse, order_perm := List.reverse_perm }

/-! ## Counting the stored cells -/

/-- Sheets built from the empty sheet by `SetCell` calls that returned normally and by
`ClearCell` calls that returned normally on a position no stored cell refers to. -/
inductive ReachKept (E : Env) : Sheet → Prop where
  | empty : ReachKept E Sheet.empty
  | set (s : Sheet) (p : Position) (t : String) (fuel : Nat) (s' : Sheet) :
      ReachKept E s → SetCell E fuel s p t = some ⟨s', Status.ok⟩ → ReachKept E s'
  | clear (s : Sheet) (p : Position) :
      ReachKept E s → (∀ a, ¬ s.RefersTo E a p) → (ClearCell s p).status = Status.ok →
      ReachKept E (ClearCell s p).st

/-! ## The two adjacency sets as inverse relations -/

end Table

/-! # Theorems -/

namespace Table

/-! ## Containers and frames -/

theorem setCellAt_sheet (s : Sheet) (i : Nat) (c : Cell) : (s.setCellAt i c).sheet_ = s.sheet_ := rfl

theorem setCellAt_rows (s : Sheet) (i : Nat) (c : Cell) : (s.setCellAt i c).rows_ = s.rows_ := rfl

theorem setCellAt_cols (s : Sheet) (i : Nat) (c : Cell) : (s.setCellAt i c).cols_ = s.cols_ := rfl

theorem setCellAt_size (s : Sheet) (i : Nat) (c : Cell) : (s.setCellAt i c).size_ = s.size_ := rfl

theorem setCellAt_find (s : Sheet) (i : Nat) (c : Cell) (p : Position) :
    (s.setCellAt i c).find p = s.find p := rfl

theorem setCellAt_length (s : Sheet) (i : Nat) (c : Cell) :
    (s.setCellAt i c).heap.length = s.heap.length := by
  simp [Sheet.setCellAt]

theorem cell_setCellAt_same (s : Sheet) (i : Nat) (c : Cell) (h : i < s.heap.length) :
    (s.setCellAt i c).cell i = c := by
  simp [Sheet.setCellAt, Sheet.cell, List.getD_eq_getElem?_getD, List.getElem?_set, h]

theorem cell_setCellAt_other (s : Sheet) (i j : Nat) (c : Cell) (h : i ≠ j) :
    (s.setCellAt i c).cell j = s.cell j := by
  simp [Sheet.setCellAt, Sheet.cell, List.getD_eq_getElem?_getD, List.getElem?_set, h]

theorem order_nil (E : Env) : E.order [] = [] :=
  List.Perm.eq_nil (E.order_perm [])

theorem mem_order (E : Env) (l : List Nat) (x : Nat) : x ∈ E.order l ↔ x ∈ l :=
  (E.order_perm l).mem_iff

theorem cell_setCellAt (s : Sheet) (i j : Nat) (c : Cell) :
    (s.setCellAt i c).cell j = if i = j ∧ i < s.heap.length then c else s.cell j := by
  by_cases h : i = j
  · subst h
    by_cases hl : i < s.heap.length
    · simp [cell_setCellAt_same, hl]
    · simp only [hl, and_false, if_false]
      have hnone : s.heap[i]? = none := List.getElem?_eq_none (by omega)
      simp [Sheet.setCellAt, Sheet.cell, List.getD_eq_getElem?_getD, List.getElem?_set, hl, hnone]
  · simp [cell_setCellAt_other, h]

theorem invalidate_idem (i : Impl) : i.InvalidateCache.InvalidateCache = i.InvalidateCache := by
  cases i <;> rfl

theorem Sheet.SameUpToCache.same_refl (s : Sheet) : s.SameUpToCache s :=
  ⟨rfl, rfl, rfl, rfl, rfl, fun _ => ⟨rfl, rfl, rfl⟩⟩

theorem Sheet.SameUpToCache.same_trans {a b c : Sheet} (h1 : a.SameUpToCache b) (h2 : b.SameUpToCache c) :
    a.SameUpToCache c := by
  obtain ⟨a1, a2, a3, a4, a5, a6⟩ := h1
  obtain ⟨b1, b2, b3, b4, b5, b6⟩ := h2
  refine ⟨b1.trans a1, b2.trans a2, b3.trans a3, b4.trans a4, b5.trans a5, fun i => ?_⟩
  exact ⟨(b6 i).1.trans (a6 i).1, (b6 i).2.1.trans (a6 i).2.1, (b6 i).2.2.trans (a6 i).2.2⟩

theorem dropCache_same (s : Sheet) (id : Nat) : s.SameUpToCache (s.dropCache id) := by
  refine ⟨rfl, rfl, rfl, rfl, by simp [Sheet.dropCache, setCellAt_length], fun i => ?_⟩
  unfold Sheet.dropCache
  rw [cell_setCellAt]
  split
  · next h =>
    obtain ⟨rfl, _⟩ := h
    refine ⟨rfl, rfl, ?_⟩
    cases (s.cell id).impl_ <;> simp [invalidate_idem]
  · exact ⟨rfl, rfl, rfl⟩

theorem invalidateBody_same (E : Env) (l : List Nat) (s : Sheet) (dq : List Nat) :
    s.SameUpToCache (invalidateBody E l s dq).1 := by
  induction l generalizing s dq with
  | nil => exact Sheet.SameUpToCache.same_refl s
  | cons c rest ih =>
    simp only [invalidateBody]
    exact Sheet.SameUpToCache.same_trans (dropCache_same s c) (ih _ _)

theorem invalidateLoop_same (E : Env) (self fuel : Nat) (s : Sheet) (dq : List Nat) (s' : Sheet)
    (h : invalidateLoop E self fuel s dq = some s') : s.SameUpToCache s' := by
  induction fuel generalizing s dq with
  | zero => simp [invalidateLoop] at h
  | succ n ih =>
    simp only [invalidateLoop] at h
    split at h
    · exact Sheet.SameUpToCache.same_trans (invalidateBody_same E _ s dq) (ih _ _ h)
    · cases h; exact Sheet.SameUpToCache.same_refl _

theorem InvalidateCache_same (E : Env) (fuel : Nat) (s : Sheet) (self : Nat) (s' : Sheet)
    (h : Cell.InvalidateCache E fuel s self = some s') : s.SameUpToCache s' := by
  unfold Cell.InvalidateCache at h
  split at h
  · cases h; exact Sheet.SameUpToCache.same_refl s
  · exact Sheet.SameUpToCache.same_trans (dropCache_same s self) (invalidateLoop_same E self fuel _ _ s' h)

theorem lookup_append_single (l : List (Position × Nat)) (p q : Position) (i : Nat) :
    (l ++ [(p, i)]).lookup q = match l.lookup q with
      | some j => some j
      | none => if q = p then some i else none := by
  induction l with
  | nil =>
    by_cases h : q = p
    · subst h; simp [List.lookup]
    · have : (q == p) = false := by simpa using h
      simp [List.lookup, this, h]
  | cons e rest ih =>
    obtain ⟨k, v⟩ := e
    simp only [List.cons_append, List.lookup]
    cases hk : (q == k) with
    | true => simp
    | false => simpa using ih

theorem lookup_filter_ne (l : List (Position × Nat)) (p q : Position) :
    (l.filter (fun e => !decide (e.1 = p))).lookup q = if q = p then none else l.lookup q := by
  induction l with
  | nil => simp [List.lookup]
  | cons e rest ih =>
    obtain ⟨k, v⟩ := e
    by_cases hk : k = p
    · subst hk
      have hf : (List.filter (fun e => !decide (e.1 = k)) ((k, v) :: rest))
          = List.filter (fun e => !decide (e.1 = k)) rest := by
        simp [List.filter_cons]
      rw [hf, ih]
      by_cases hq : q = k
      · simp [hq]
      · have : (q == k) = false := by simpa using hq
        simp [hq, List.lookup, this]
    · have hf : (List.filter (fun e => !decide (e.1 = p)) ((k, v) :: rest))
          = (k, v) :: List.filter (fun e => !decide (e.1 = p)) rest := by
        simp [List.filter_cons, hk]
      rw [hf]
      by_cases hqk : q = k
      · subst hqk
        simp [hk, List.lookup]
      · have : (q == k) = false := by simpa using hqk
        simp only [List.lookup, this, ih]

theorem Sheet.Extends.ext_refl (s : Sheet) : s.Extends s :=
  ⟨Nat.le_refl _, fun _ _ h => Or.inl h⟩

theorem Sheet.Extends.ext_trans {a b c : Sheet} (h1 : a.Extends b) (h2 : b.Extends c) : a.Extends c := by
  refine ⟨Nat.le_trans h1.1 h2.1, fun q i h => ?_⟩
  rcases h2.2 q i h with h | ⟨h, h'⟩
  · rcases h1.2 q i h with h | ⟨h, h'⟩
    · exact Or.inl h
    · exact Or.inr ⟨h, Nat.lt_of_lt_of_le h' h2.1⟩
  · exact Or.inr ⟨Nat.le_trans h1.1 h, h'⟩

theorem Sheet.Extends.of_frame {s s' : Sheet} (h1 : s'.sheet_ = s.sheet_)
    (h2 : s'.heap.length = s.heap.length) : s.Extends s' := by
  refine ⟨by omega, fun q i h => Or.inl ?_⟩
  simpa [Sheet.find, h1] using h

theorem Sheet.Extends.setCellAt (s : Sheet) (i : Nat) (c : Cell) : s.Extends (s.setCellAt i c) :=
  Sheet.Extends.of_frame rfl (setCellAt_length s i c)

theorem Sheet.Extends.of_same {s s' : Sheet} (h : s.SameUpToCache s') : s.Extends s' :=
  Sheet.Extends.of_frame h.1 h.2.2.2.2.1

theorem Sheet.Extends.keeps_live {s s' : Sheet} (h : s.Extends s') (hs : s.PointersLive) :
    s'.PointersLive := by
  intro q i hq
  rcases h.2 q i hq with h' | ⟨_, h'⟩
  · exact Nat.lt_of_lt_of_le (hs q i h') h.1
  · exact h'

theorem linkCells_sheet (s : Sheet) (a b : Nat) : (linkCells s a b).sheet_ = s.sheet_ := rfl

theorem linkCells_rows (s : Sheet) (a b : Nat) : (linkCells s a b).rows_ = s.rows_ := rfl

theorem linkCells_cols (s : Sheet) (a b : Nat) : (linkCells s a b).cols_ = s.cols_ := rfl

theorem linkCells_size (s : Sheet) (a b : Nat) : (linkCells s a b).size_ = s.size_ := rfl

theorem linkCells_length (s : Sheet) (a b : Nat) : (linkCells s a b).heap.length = s.heap.length := by
  simp [linkCells, setCellAt_length]

theorem Sheet.Extends.linkCells (s : Sheet) (a b : Nat) : s.Extends (linkCells s a b) :=
  Sheet.Extends.of_frame rfl (linkCells_length s a b)

theorem ClearCell_cases (s : Sheet) (pos : Position) :
    ClearCell s pos = ⟨s, Status.InvalidPositionException⟩ ∨ ClearCell s pos = ⟨s, Status.ok⟩ ∨
    ClearCell s pos = ⟨s, Status.undefined⟩ ∨ ClearCell s pos = ⟨s.clearInside pos, Status.ok⟩ ∨
    ∃ er ec, ClearCell s pos = ⟨s.clearEdge pos er ec, Status.ok⟩ := by
  unfold ClearCell
  split
  · exact Or.inl rfl
  · split
    · exact Or.inr (Or.inl rfl)
    · split
      · split
        · exact Or.inr (Or.inr (Or.inr (Or.inl rfl)))
        · exact Or.inr (Or.inr (Or.inr (Or.inr ⟨_, _, rfl⟩)))
      · exact Or.inr (Or.inr (Or.inl rfl))

theorem ClearCell_sheet (s : Sheet) (pos : Position) :
    (ClearCell s pos).st.sheet_ = s.sheet_ ∨
    (ClearCell s pos).st.sheet_ = s.sheet_.filter (fun e => !decide (e.1 = pos)) := by
  rcases ClearCell_cases s pos with h | h | h | h | ⟨er, ec, h⟩ <;> rw [h]
  · exact Or.inl rfl
  · exact Or.inl rfl
  · exact Or.inl rfl
  · exact Or.inr rfl
  · exact Or.inr rfl

theorem ClearCell_find (s : Sheet) (pos q : Position) :
    (ClearCell s pos).st.find q = s.find q ∨ (ClearCell s pos).st.find q = none := by
  rcases ClearCell_sheet s pos with h | h
  · exact Or.inl (by simp [Sheet.find, h])
  · simp only [Sheet.find, h, lookup_filter_ne]
    split
    · exact Or.inr rfl
    · exact Or.inl rfl

theorem ClearCell_heap (s : Sheet) (pos : Position) : (ClearCell s pos).st.heap = s.heap := by
  rcases ClearCell_cases s pos with h | h | h | h | ⟨er, ec, h⟩ <;> rw [h] <;> rfl

theorem Sheet.Extends.clearCell (s : Sheet) (pos : Position) : s.Extends (ClearCell s pos).st := by
  refine ⟨by rw [ClearCell_heap], fun q i h => ?_⟩
  rcases ClearCell_find s pos q with h' | h'
  · exact Or.inl (h' ▸ h)
  · rw [h'] at h; cases h

theorem linkReferenced_extends (sc : Sheet → Position → String → Option Outcome)
    (hsc : ∀ s p t o, sc s p t = some o → s.Extends o.st) (self : Nat) (l : List Position)
    (s : Sheet) (jc : Bool) (ep : Position) (r : Outcome × Bool × Position)
    (h : linkReferenced sc self l s jc ep = some r) : s.Extends r.1.st := by
  induction l generalizing s jc ep with
  | nil =>
    simp only [linkReferenced, Option.some.injEq] at h
    subst h
    exact Sheet.Extends.ext_refl s
  | cons pos rest ih =>
    simp only [linkReferenced] at h
    split at h
    · cases h; exact Sheet.Extends.ext_refl s
    · exact (Sheet.Extends.linkCells s self _).ext_trans (ih _ _ _ h)
    · split at h
      · cases h
      · next o ho =>
        have h1 := hsc _ _ _ _ ho
        split at h
        · cases h; exact h1
        · split at h
          · exact (h1.ext_trans (Sheet.Extends.linkCells _ self _)).ext_trans (ih _ _ _ h)
          · cases h; exact h1

theorem rollback_extends (s : Sheet) (self : Nat) (jc : Bool) (ep : Position) (c : Option Nat) :
    s.Extends (Cell.rollback s self jc ep c).st := by
  unfold Cell.rollback
  split
  · split
    · have h1 := Sheet.Extends.clearCell
        ((s.setCellAt self { s.cell self with
            referenced_ := setErase (s.cell self).referenced_ ‹Nat› }).setCellAt ‹Nat›
          ((s.setCellAt self { s.cell self with
            referenced_ := setErase (s.cell self).referenced_ ‹Nat› }).cell ‹Nat›).Clear) ep
      have h2 := ((Sheet.Extends.setCellAt s self _).ext_trans (Sheet.Extends.setCellAt _ _ _)).ext_trans h1
      simp only [DeleteCell]
      split
      · exact h2
      · exact h2
    · exact Sheet.Extends.ext_refl s
    · exact Sheet.Extends.ext_refl s
  · split
    · exact (Sheet.Extends.setCellAt s self _).ext_trans (Sheet.Extends.setCellAt _ _ _)
    · exact Sheet.Extends.ext_refl s

theorem CellSet_extends (E : Env) (sc : Sheet → Position → String → Option Outcome)
    (hsc : ∀ s p t o, sc s p t = some o → s.Extends o.st) (fuel : Nat) (s : Sheet) (self : Nat)
    (text : String) (o : Outcome) (h : Cell.Set E sc fuel s self text = some o) :
    s.Extends o.st := by
  unfold Cell.Set at h
  split at h
  · cases h; exact Sheet.Extends.ext_refl s
  · split at h
    · cases h
    · next o1 jc ep hl =>
      have h1 := linkReferenced_extends sc hsc self _ s false ⟨0, 0⟩ _ hl
      split at h
      · cases h; exact h1
      · split at h
        · cases h
        · cases h; exact h1.ext_trans (rollback_extends _ _ _ _ _)
        · split at h
          · split at h
            · cases h
            · next s2 hi =>
              cases h
              exact (h1.ext_trans (Sheet.Extends.of_same (InvalidateCache_same E fuel _ self s2 hi))).ext_trans
                (Sheet.Extends.setCellAt _ _ _)
          · cases h; exact h1.ext_trans (Sheet.Extends.setCellAt _ _ _)

theorem bookkeep_find (s : Sheet) (pos q : Position) : (s.bookkeep pos).find q = s.find q := rfl

theorem bookkeep_heap (s : Sheet) (pos : Position) : (s.bookkeep pos).heap = s.heap := rfl

theorem Sheet.Extends.bookkeep (s : Sheet) (pos : Position) : s.Extends (s.bookkeep pos) :=
  Sheet.Extends.of_frame rfl rfl

theorem release_find (s : Sheet) (id : Nat) (q : Position) : (s.release id).find q = s.find q := by
  unfold Sheet.release
  split <;> rfl

theorem alloc_find (s : Sheet) (q : Position) : s.alloc.find q = s.find q := rfl

theorem alloc_length (s : Sheet) : s.alloc.heap.length = s.heap.length + 1 := by
  simp [Sheet.alloc]

theorem install_find (s : Sheet) (pos q : Position) (id : Nat) :
    (s.install pos id).find q = match s.find q with
      | some j => some j
      | none => if q = pos then some id else none := by
  simp only [Sheet.install, Sheet.find, lookup_append_single]

theorem install_heap (s : Sheet) (pos : Position) (id : Nat) : (s.install pos id).heap = s.heap := rfl

theorem release_extends (s s1 : Sheet) (h : s.alloc.Extends s1) :
    s.Extends (s1.release s.heap.length) := by
  obtain ⟨h1, h2⟩ := h
  simp only [alloc_length, alloc_find] at h1 h2
  refine ⟨?_, fun q i hq => ?_⟩
  · unfold Sheet.release
    split
    · simp only [List.length_dropLast]; omega
    · omega
  · rw [release_find] at hq
    rcases h2 q i hq with h | ⟨ha, hb⟩
    · exact Or.inl h
    · refine Or.inr ⟨by omega, ?_⟩
      unfold Sheet.release
      split
      · next hlen => omega
      · exact hb

theorem SetCell_extends (E : Env) (fuel : Nat) (s : Sheet) (pos : Position) (text : String)
    (o : Outcome) (h : SetCell E fuel s pos text = some o) : s.Extends o.st := by
  induction fuel generalizing s pos text o with
  | zero => simp [SetCell] at h
  | succ n ih =>
    have hsc : ∀ s p t o, (fun s' p t => SetCell E n s' p t) s p t = some o → s.Extends o.st :=
      fun s p t o h => ih s p t o h
    simp only [SetCell] at h
    split at h
    · cases h; exact Sheet.Extends.ext_refl s
    · split at h
      · next id hid =>
        split at h
        · cases h
        · next o1 ho1 =>
          have h1 := CellSet_extends E _ hsc n s id text o1 ho1
          split at h
          · cases h; exact h1.ext_trans (Sheet.Extends.bookkeep _ _)
          · cases h; exact h1
      · next hnone =>
        split at h
        · cases h
        · next o1 ho1 =>
          have h1 := CellSet_extends E _ hsc n _ s.heap.length text o1 ho1
          split at h
          · cases h; exact release_extends s o1.st h1
          · split at h
            · cases h
              refine release_extends s _ (h1.ext_trans (Sheet.Extends.clearCell _ _))
            · cases h
              obtain ⟨ha, hb⟩ := h1
              simp only [alloc_length, alloc_find] at ha hb
              refine ⟨by simp only [bookkeep_heap, install_heap]; omega, fun q i hq => ?_⟩
              simp only [bookkeep_find, install_find] at hq
              simp only [bookkeep_heap, install_heap]
              cases hl : o1.st.find q with
              | some j =>
                rw [hl] at hq
                simp only [Option.some.injEq] at hq
                subst hq
                rcases hb q j hl with h | ⟨h, h'⟩
                · exact Or.inl h
                · exact Or.inr ⟨by omega, h'⟩
              | none =>
                rw [hl] at hq
                simp only at hq
                split at hq
                · cases hq
                  exact Or.inr ⟨Nat.le_refl _, by omega⟩
                · cases hq

theorem Reach.pointers_live (E : Env) (s : Sheet) (h : Reach E s) : s.PointersLive := by
  induction h with
  | empty => intro q i hq; simp [Sheet.find, Sheet.empty] at hq
  | step s op fuel o _ hrun ih =>
    cases op with
    | set pos text => exact (SetCell_extends E fuel s pos text o hrun).keeps_live ih
    | clear pos =>
      simp only [Op.run, Option.some.injEq] at hrun
      subst hrun
      exact (Sheet.Extends.clearCell s pos).keeps_live ih

/-! ## Invalid positions, malformed formulas -/

/-- C7: whatever the sheet, when `pos` is not valid each of `SetCell(pos, t)`, `GetCell(pos)`
and `ClearCell(pos)` raises `InvalidPositionException` and leaves the sheet as it was; when
`pos` is valid, `GetCell(pos)` does not raise and returns the stored pointer, or null. -/
theorem C7_invalid_position (E : Env) (s : Sheet) (pos : Position) (t : String) (fuel : Nat) :
    (pos.IsValid = false →
      SetCell E (fuel + 1) s pos t = some ⟨s, Status.InvalidPositionException⟩ ∧
      GetCell s pos = Except.error Status.InvalidPositionException ∧
      ClearCell s pos = ⟨s, Status.InvalidPositionException⟩) ∧
    (pos.IsValid = true → GetCell s pos = Except.ok (s.find pos)) := by
  constructor
  · intro h
    simp [SetCell, GetCell, ClearCell, h]
  · intro h
    simp [GetCell, h]

/-- C8: whatever the sheet, for a valid position `p` and a text `t` that starts with `=`, has
at least two characters and whose body the formula parser rejects, `SetCell(p, t)` raises
`FormulaException` and leaves the sheet exactly as it was (cells, adjacency sets, caches,
counters, printable size). -/
theorem C8_formula_parse_failure_atomic (E : Env) (s : Sheet) (p : Position) (t : String)
    (fuel : Nat) (hp : p.IsValid = true) (h0 : t.data.head? = some '=') (hlen : 2 ≤ t.length)
    (hrej : E.parses (substr1 t) = false) :
    SetCell E (fuel + 1) s p t = some ⟨s, Status.FormulaException⟩ := by
  have hne : ¬ t.length = 0 := by omega
  have hgt : t.length > 1 := by omega
  have himpl : Cell.makeImpl E t = none := by
    simp [Cell.makeImpl, hne, h0, hgt, hrej]
  cases hf : s.find p with
  | some id => simp [SetCell, hp, hf, Cell.Set, himpl]
  | none => simp [SetCell, hp, hf, Cell.Set, himpl, Sheet.release, Sheet.alloc]

/-- C8 at a concrete input: on the empty sheet `SetCell(A1, "=A1+")` raises `FormulaException`
and the sheet stays empty. -/
theorem C8_formula_parse_failure_atomic_witness :
    SetCell Demo.env 1 Sheet.empty A1 "=A1+" = some ⟨Sheet.empty, Status.FormulaException⟩ :=
  C8_formula_parse_failure_atomic Demo.env Sheet.empty A1 "=A1+" 0 (by decide) (by decide)
    (by decide) (by decide)

/-! ## Texts that are not formulas -/

theorem makeImpl_plain (E : Env) (t : String) (ht : t.data.head? ≠ some '=' ∨ t = "=") :
    Cell.makeImpl E t = some (plainImpl t) := by
  unfold Cell.makeImpl plainImpl textValue
  by_cases h0 : t.length = 0
  · simp [h0]
  · rcases ht with ht | ht
    · simp only [h0, ht, false_and, if_false]
      split <;> rfl
    · subst ht
      rfl

theorem plainImpl_refs (E : Env) (t : String) : (plainImpl t).GetReferencedCells E = [] := by
  unfold plainImpl
  split <;> rfl

theorem plainImpl_text (t : String) : (plainImpl t).GetText = t := by
  unfold plainImpl
  split
  · next h =>
    have : t.data = [] := List.length_eq_zero.mp h
    show "" = t
    exact String.ext this.symm
  · rfl

theorem cell_congr {s s' : Sheet} (h : s'.heap = s.heap) (i : Nat) : s'.cell i = s.cell i := by
  simp [Sheet.cell, h]

theorem alloc_cell_new (s : Sheet) : s.alloc.cell s.heap.length = Cell.fresh := by
  simp [Sheet.alloc, Sheet.cell, List.getD_eq_getElem?_getD]

theorem alloc_cell_old (s : Sheet) (i : Nat) (h : i < s.heap.length) : s.alloc.cell i = s.cell i := by
  simp [Sheet.alloc, Sheet.cell, List.getD_eq_getElem?_getD, List.getElem?_append_left h]

theorem circular_of_no_dependents (E : Env) (s : Sheet) (self n : Nat)
    (h : (s.cell self).references_ = []) :
    Cell.IsCircularDependency E (n + 2) s self = some (false, none) := by
  simp [Cell.IsCircularDependency, circularLoop, h, order_nil, visitDependents]

theorem CellSet_plain (E : Env) (sc : Sheet → Position → String → Option Outcome) (fuel : Nat)
    (s : Sheet) (self : Nat) (text : String) (impl : Impl) (o : Outcome)
    (hm : Cell.makeImpl E text = some impl) (hr : impl.GetReferencedCells E = [])
    (h : Cell.Set E sc fuel s self text = some o) (hok : o.status = Status.ok) :
    ∃ s2, s.SameUpToCache s2 ∧ o.st = s2.setCellAt self { s2.cell self with impl_ := some impl } := by
  unfold Cell.Set at h
  simp only [hm, hr, linkReferenced] at h
  simp only [ne_eq, not_true_eq_false, if_false] at h
  split at h
  · cases h
  · cases h
    simp only [Cell.rollback, Bool.false_eq_true, if_false] at hok
    split at hok <;> cases hok
  · split at h
    · split at h
      · cases h
      · next s2 hi =>
        cases h
        exact ⟨s2, InvalidateCache_same E fuel s self s2 hi, rfl⟩
    · cases h
      exact ⟨s, Sheet.SameUpToCache.same_refl s, rfl⟩

theorem SetCell_fresh_plain (E : Env) (s : Sheet) (p : Position) (t : String) (impl : Impl)
    (n : Nat) (hp : p.IsValid = true) (hf : s.find p = none)
    (hm : Cell.makeImpl E t = some impl) (hr : impl.GetReferencedCells E = []) :
    SetCell E (n + 3) s p t
      = some ⟨((s.alloc.setCellAt s.heap.length { Cell.fresh with impl_ := some impl }).install p
          s.heap.length).bookkeep p, Status.ok⟩ := by
  have hc := circular_of_no_dependents E s.alloc s.heap.length n
    (by rw [alloc_cell_new]; rfl)
  have hf2 : ((s.alloc.setCellAt s.heap.length
      { impl_ := some impl, references_ := [], referenced_ := [] }).find p).isSome = false := by
    rw [setCellAt_find, alloc_find, hf]; rfl
  simp only [SetCell, hp, hf, Cell.Set, hm, hr, linkReferenced, hc, alloc_cell_new,
    Cell.IsReferenced, Cell.fresh]
  simp [hf2]

theorem value_of_plain (E : Env) (s : Sheet) (p : Position) (id : Nat) (t : String) (m : Nat)
    (hf : s.find p = some id) (hi : (s.cell id).impl_ = some (plainImpl t)) :
    s.GetText p = some t ∧ s.GetReferencedCells E p = some [] ∧
    s.GetValue E (m + 1) p = some (some (Value.str (textValue t)), s) := by
  refine ⟨?_, ?_, ?_⟩
  · simp [Sheet.GetText, hf, Cell.GetText, hi, plainImpl_text]
  · simp [Sheet.GetReferencedCells, hf, Cell.GetReferencedCells, hi, plainImpl_refs]
  · by_cases h : t.length = 0
    · have h1 : t.data = [] := List.length_eq_zero.mp h
      have h2 : textValue t = "" := by
        unfold textValue
        rw [h1]
        simp only [List.head?_nil]
        exact String.ext h1
      have hi' : (s.cell id).impl_ = some Impl.empty := by simpa [plainImpl, h] using hi
      simp [Sheet.GetValue, hf, Cell.GetValue, hi', h2]
    · have hi' : (s.cell id).impl_ = some (Impl.text (textValue t) t) := by
        simpa [plainImpl, h] using hi
      simp [Sheet.GetValue, hf, Cell.GetValue, hi']

/-- C9: in every sheet reached from the empty sheet, when `SetCell(p, t)` returns normally for a
text `t` that does not start with `=`, or is `=` alone, the cell stored at `p` afterwards is
Empty when `t` is empty and otherwise a Text cell holding `t` as text and, as value, `t`
without its first character when that is an apostrophe and `t` itself when not; `GetText()`
is `t`, `GetReferencedCells()` is empty and `GetValue()` is that value as a string (and
leaves the sheet as it is). -/
theorem C9_text_classification (E : Env) (s : Sheet) (hs : Reach E s) (p : Position) (t : String)
    (fuel : Nat) (s' : Sheet) (ht : t.data.head? ≠ some '=' ∨ t = "=")
    (hset : SetCell E fuel s p t = some ⟨s', Status.ok⟩) :
    ∃ id, s'.find p = some id ∧
      (s'.cell id).impl_
        = some (if t.length = 0 then Impl.empty else Impl.text (textValue t) t) ∧
      s'.GetText p = some t ∧ s'.GetReferencedCells E p = some [] ∧
      ∀ m, s'.GetValue E (m + 1) p = some (some (Value.str (textValue t)), s') := by
  have hm := makeImpl_plain E t ht
  have hr := plainImpl_refs E t
  suffices h : ∃ id, s'.find p = some id ∧ (s'.cell id).impl_ = some (plainImpl t) by
    obtain ⟨id, h1, h2⟩ := h
    exact ⟨id, h1, h2, (value_of_plain E s' p id t 0 h1 h2).1,
      (value_of_plain E s' p id t 0 h1 h2).2.1, fun m => (value_of_plain E s' p id t m h1 h2).2.2⟩
  cases fuel with
  | zero => simp [SetCell] at hset
  | succ n =>
    simp only [SetCell] at hset
    split at hset
    · cases hset
    · split at hset
      · next id hid =>
        split at hset
        · cases hset
        · next o1 ho1 =>
          split at hset
          · next hok =>
            cases hset
            obtain ⟨s2, hsame, hst⟩ := CellSet_plain E _ n s id t _ o1 hm hr ho1 hok
            have hlive : id < s2.heap.length := by
              rw [hsame.2.2.2.2.1]; exact hs.pointers_live E s p id hid
            refine ⟨id, ?_, ?_⟩
            · rw [bookkeep_find, hst, setCellAt_find]
              simpa [Sheet.find, hsame.1] using hid
            · rw [cell_congr (bookkeep_heap o1.st p), hst, cell_setCellAt_same _ _ _ hlive]
          · cases hset
            rename_i hne
            exact absurd rfl hne
      · next hnone =>
        split at hset
        · cases hset
        · next o1 ho1 =>
          split at hset
          · next hne =>
            simp only [Option.some.injEq, Outcome.mk.injEq] at hset
            exact absurd hset.2 hne
          · next hok =>
            have hok' : o1.status = Status.ok := by simpa using hok
            obtain ⟨s2, hsame, hst⟩ := CellSet_plain E _ n _ s.heap.length t _ o1 hm hr ho1 hok'
            have hlive : s.heap.length < s2.heap.length := by
              rw [hsame.2.2.2.2.1, alloc_length]; omega
            have hfind : o1.st.find p = none := by
              rw [hst, setCellAt_find]
              simpa [Sheet.find, hsame.1, Sheet.alloc] using hnone
            split at hset
            · next hsome => rw [hfind] at hsome; cases hsome
            · cases hset
              refine ⟨s.heap.length, ?_, ?_⟩
              · rw [bookkeep_find, install_find, hfind]; simp
              · rw [cell_congr (bookkeep_heap _ p), cell_congr (install_heap _ _ _), hst,
                  cell_setCellAt_same _ _ _ hlive]

/-- C9 at a concrete input: `SetCell(A1, "'=1+1")` on the empty sheet returns normally, and the
cell at `A1` is then a Text cell with text `'=1+1` and value `=1+1`. -/
theorem C9_text_classification_witness :
    SetCell Demo.env 3 Sheet.empty A1 "'=1+1" = some ⟨quotedSheet, Status.ok⟩ ∧
    ∃ id, quotedSheet.find A1 = some id ∧
      (quotedSheet.cell id).impl_
        = some (if "'=1+1".length = 0 then Impl.empty
            else Impl.text (textValue "'=1+1") "'=1+1") ∧
      quotedSheet.GetText A1 = some "'=1+1" ∧
      quotedSheet.GetReferencedCells Demo.env A1 = some [] ∧
      ∀ m, quotedSheet.GetValue Demo.env (m + 1) A1
        = some (some (Value.str (textValue "'=1+1")), quotedSheet) :=
  ⟨rfl, C9_text_classification Demo.env Sheet.empty Reach.empty A1 "'=1+1" 3 quotedSheet
    (Or.inl (by decide)) rfl⟩

/-- C10 (as amended): on the empty sheet, for a valid position `p` and a text `t` that does not
start with `=`, `SetCell(p, t)` returns normally (given fuel for three nested calls), after
which `GetText()` of the cell at `p` is `t` and `GetValue()` is the string `t` when `t` does
not start with an apostrophe, and `t` without that apostrophe when it does. -/
theorem C10_text_round_trip (E : Env) (p : Position) (t : String) (n : Nat)
    (hp : p.IsValid = true) (ht : t.data.head? ≠ some '=') :
    ∃ s', SetCell E (n + 3) Sheet.empty p t = some ⟨s', Status.ok⟩ ∧
      s'.GetText p = some t ∧
      ∀ m, s'.GetValue E (m + 1) p
        = some (some (Value.str (if t.data.head? = some apostrophe then substr1 t else t)), s') := by
  have hm := makeImpl_plain E t (Or.inl ht)
  have hr := plainImpl_refs E t
  refine ⟨_, SetCell_fresh_plain E Sheet.empty p t _ n hp rfl hm hr, ?_⟩
  have hfind : (((Sheet.empty.alloc.setCellAt Sheet.empty.heap.length
      { Cell.fresh with impl_ := some (plainImpl t) }).install p
        Sheet.empty.heap.length).bookkeep p).find p = some 0 := by
    rw [bookkeep_find, install_find]
    simp [Sheet.find, Sheet.empty, Sheet.alloc, Sheet.setCellAt]
  have himpl : ((((Sheet.empty.alloc.setCellAt Sheet.empty.heap.length
      { Cell.fresh with impl_ := some (plainImpl t) }).install p
        Sheet.empty.heap.length).bookkeep p).cell 0).impl_ = some (plainImpl t) := rfl
  exact ⟨(value_of_plain E _ p 0 t 0 hfind himpl).1,
    fun m => (value_of_plain E _ p 0 t m hfind himpl).2.2⟩

/-- C10 at a concrete input: `SetCell(B2, "abc")` on the empty sheet. -/
theorem C10_text_round_trip_witness :
    ∃ s', SetCell Demo.env 3 Sheet.empty B2 "abc" = some ⟨s', Status.ok⟩ ∧
      s'.GetText B2 = some "abc" ∧
      ∀ m, s'.GetValue Demo.env (m + 1) B2
        = some (some (Value.str (if "abc".data.head? = some apostrophe then substr1 "abc"
            else "abc")), s') :=
  C10_text_round_trip Demo.env B2 "abc" 0 (by decide) (by decide)

/-- C10 as stated fails: after `SetCell(A1, "'=1+1")` on the empty sheet, `GetText()` of the
cell at `A1` is `'=1+1` but `GetValue()` is the string `=1+1`, which is not the text. -/
theorem C10_apostrophe_counterexample :
    (SetCell Demo.env 3 Sheet.empty A1 "'=1+1").bind
        (fun o => (o.st.GetValue Demo.env 1 A1).map
          (fun v => (o.status, o.st.GetText A1, v.1, decide (v.1 = some (Value.str "'=1+1")))))
      = some (Status.ok, some "'=1+1", some (Value.str "=1+1"), false) :=
  rfl

/-! ## `SetCell` followed by `ClearCell` -/

theorem mapSet_ne_nil (m : List (Int × Int)) (k v : Int) : mapSet m k v ≠ [] := by
  cases m with
  | nil => simp [mapSet]
  | cons e rest =>
    obtain ⟨k', v'⟩ := e
    simp only [mapSet]
    split
    · simp
    · split <;> simp

theorem emptyBefore_some (m : List (Int × Int)) (h : m ≠ []) : ∃ e, emptyBefore m = some e := by
  unfold emptyBefore
  have hr : m.reverse ≠ [] := by simpa using h
  split
  · next heq => exact absurd heq hr
  · exact ⟨_, rfl⟩
  · exact ⟨_, rfl⟩

theorem bookkeep_rows_ne (s : Sheet) (p : Position) : (s.bookkeep p).rows_ ≠ [] := by
  unfold Sheet.bookkeep
  simp only
  split <;> exact mapSet_ne_nil _ _ _

theorem bookkeep_cols_ne (s : Sheet) (p : Position) : (s.bookkeep p).cols_ ≠ [] := by
  unfold Sheet.bookkeep
  simp only
  split <;> exact mapSet_ne_nil _ _ _

theorem ClearCell_stored (s : Sheet) (p : Position) (id : Nat) (hp : p.IsValid = true)
    (hf : s.find p = some id) (hr : s.rows_ ≠ []) (hc : s.cols_ ≠ []) :
    (ClearCell s p).status = Status.ok ∧ (ClearCell s p).st.find p = none ∧
    (ClearCell s p).st.heap = s.heap ∧
    (∀ q, q ≠ p → (ClearCell s p).st.find q = s.find q) ∧
    (p.row + 1 < s.size_.rows → p.col + 1 < s.size_.cols → (ClearCell s p).st.size_ = s.size_) := by
  obtain ⟨er, her⟩ := emptyBefore_some s.rows_ hr
  obtain ⟨ec, hec⟩ := emptyBefore_some s.cols_ hc
  unfold ClearCell
  simp only [hp, hf, her, hec, Bool.not_true, Bool.false_eq_true, if_false, Option.isNone_some]
  split
  · next hin =>
    refine ⟨rfl, ?_, rfl, fun q hq => ?_, fun _ _ => rfl⟩
    · simp [Sheet.clearInside, Sheet.find, lookup_filter_ne]
    · simp [Sheet.clearInside, Sheet.find, lookup_filter_ne, hq]
  · next hin =>
    refine ⟨rfl, ?_, rfl, fun q hq => ?_, fun h1 h2 => ?_⟩
    · simp [Sheet.clearEdge, Sheet.find, lookup_filter_ne]
    · simp [Sheet.clearEdge, Sheet.find, lookup_filter_ne, hq]
    · exact absurd (by simp [h1, h2]) hin

theorem sameTable_refl (s : Sheet) : s.SameTable s := ⟨rfl, rfl, rfl, rfl⟩

theorem sameTable_trans {a b c : Sheet} (h1 : a.SameTable b) (h2 : b.SameTable c) :
    a.SameTable c :=
  ⟨h2.1.trans h1.1, h2.2.1.trans h1.2.1, h2.2.2.1.trans h1.2.2.1, h2.2.2.2.trans h1.2.2.2⟩

theorem sameTable_of_cache {a b : Sheet} (h : a.SameUpToCache b) : a.SameTable b :=
  ⟨h.1, h.2.1, h.2.2.1, h.2.2.2.1⟩

theorem linkReferenced_found (sc : Sheet → Position → String → Option Outcome) (self : Nat)
    (l : List Position) (s : Sheet) (jc : Bool) (ep : Position) (r : Outcome × Bool × Position)
    (hall : ∀ q ∈ l, s.find q ≠ none) (h : linkReferenced sc self l s jc ep = some r) :
    s.SameTable r.1.st ∧ r.2.1 = jc := by
  induction l generalizing s jc ep with
  | nil =>
    simp only [linkReferenced, Option.some.injEq] at h
    subst h
    exact ⟨sameTable_refl s, rfl⟩
  | cons pos rest ih =>
    simp only [linkReferenced] at h
    have hpos := hall pos (List.mem_cons_self _ _)
    have hrest : ∀ q ∈ rest, (linkCells s self ‹Nat›).find q ≠ none → True := fun _ _ _ => trivial
    unfold GetCell at h
    split at h
    · next heq =>
      split at heq
      · cases heq; cases h; exact ⟨sameTable_refl s, rfl⟩
      · cases heq
    · next c heq =>
      have := ih (linkCells s self c) jc ep
        (fun q hq => hall q (List.mem_cons_of_mem _ hq)) h
      exact ⟨sameTable_trans ⟨rfl, rfl, rfl, rfl⟩ this.1, this.2⟩
    · next heq =>
      split at heq
      · cases heq
      · simp only [Except.ok.injEq] at heq
        exact absurd heq hpos

theorem CellSet_found (E : Env) (sc : Sheet → Position → String → Option Outcome) (fuel : Nat)
    (s : Sheet) (self : Nat) (text : String) (impl : Impl) (o : Outcome)
    (hm : Cell.makeImpl E text = some impl)
    (hall : ∀ q ∈ impl.GetReferencedCells E, s.find q ≠ none)
    (h : Cell.Set E sc fuel s self text = some o) (hok : o.status = Status.ok) :
    s.SameTable o.st := by
  unfold Cell.Set at h
  simp only [hm] at h
  split at h
  · cases h
  · next o1 jc ep hl =>
    have h1 := linkReferenced_found sc self _ s false ⟨0, 0⟩ _ hall hl
    simp only at h1
    split at h
    · cases h; exact h1.1
    · split at h
      · cases h
      · cases h
        obtain ⟨_, hjc⟩ := h1
        subst hjc
        simp only [Cell.rollback, Bool.false_eq_true, if_false] at hok
        split at hok <;> cases hok
      · split at h
        · split at h
          · cases h
          · next s2 hi =>
            cases h
            exact sameTable_trans (sameTable_trans h1.1
              (sameTable_of_cache (InvalidateCache_same E fuel _ self s2 hi))) ⟨rfl, rfl, rfl, rfl⟩
        · cases h; exact sameTable_trans h1.1 ⟨rfl, rfl, rfl, rfl⟩

theorem SetCell_ok_shape (E : Env) (fuel : Nat) (s : Sheet) (p : Position) (t : String)
    (s1 : Sheet) (hf : s.find p = none) (hset : SetCell E fuel s p t = some ⟨s1, Status.ok⟩) :
    p.IsValid = true ∧ ∃ n o1, fuel = n + 1 ∧
      Cell.Set E (fun s' p t => SetCell E n s' p t) n s.alloc s.heap.length t = some o1 ∧
      o1.status = Status.ok ∧ o1.st.find p = none ∧
      s1 = (o1.st.install p s.heap.length).bookkeep p := by
  cases fuel with
  | zero => simp [SetCell] at hset
  | succ n =>
    simp only [SetCell, hf] at hset
    split at hset
    · simp only [Option.some.injEq, Outcome.mk.injEq] at hset
      exact absurd hset.2 (by decide)
    · next hv =>
      refine ⟨by simpa using hv, n, ?_⟩
      split at hset
      · cases hset
      · next o1 ho1 =>
        refine ⟨o1, rfl, ho1, ?_⟩
        split at hset
        · next hne =>
          simp only [Option.some.injEq, Outcome.mk.injEq] at hset
          exact absurd hset.2 hne
        · next hok =>
          have hok' : o1.status = Status.ok := by simpa using hok
          split at hset
          · simp only [Option.some.injEq, Outcome.mk.injEq] at hset
            obtain ⟨_, hst⟩ := hset
            split at hst
            · cases hst
            · next hc => exact absurd hst hc
          · next hnone =>
            simp only [Option.some.injEq, Outcome.mk.injEq, and_true] at hset
            refine ⟨hok', ?_, hset.symm⟩
            cases hfo : o1.st.find p with
            | none => rfl
            | some j => rw [hfo] at hnone; simp at hnone

/-- C6 (as amended): whatever the sheet, for a position `p` that holds no cell and a text `t`
for which `SetCell(p, t)` returns normally, `ClearCell(p)` afterwards returns normally and
leaves no cell at `p`; and when every position `t` refers to already held a cell and `p` lies
strictly inside the printable box (`p.row + 1 < rows`, `p.col + 1 < cols`),
`GetPrintableSize()` is afterwards what it was before the `SetCell`. -/
theorem C6_set_then_clear (E : Env) (s : Sheet) (p : Position) (t : String) (fuel : Nat)
    (s1 : Sheet) (hf : s.find p = none) (hset : SetCell E fuel s p t = some ⟨s1, Status.ok⟩) :
    (ClearCell s1 p).status = Status.ok ∧ (ClearCell s1 p).st.find p = none ∧
    ((∀ impl, Cell.makeImpl E t = some impl → ∀ q ∈ impl.GetReferencedCells E, s.find q ≠ none) →
      p.row + 1 < (GetPrintableSize s).rows → p.col + 1 < (GetPrintableSize s).cols →
      GetPrintableSize (ClearCell s1 p).st = GetPrintableSize s) := by
  obtain ⟨hp, n, o1, _, ho1, hok, hnone, hs1⟩ := SetCell_ok_shape E fuel s p t s1 hf hset
  have hfind : s1.find p = some s.heap.length := by
    rw [hs1, bookkeep_find, install_find, hnone]; simp
  have hclear := ClearCell_stored s1 p s.heap.length hp hfind
    (by rw [hs1]; exact bookkeep_rows_ne _ _) (by rw [hs1]; exact bookkeep_cols_ne _ _)
  refine ⟨hclear.1, hclear.2.1, fun hall hr hc => ?_⟩
  cases hm : Cell.makeImpl E t with
  | none =>
    unfold Cell.Set at ho1
    simp only [hm, Option.some.injEq] at ho1
    subst ho1
    cases hok
  | some impl =>
    have hframe := CellSet_found E _ n s.alloc s.heap.length t impl o1 hm
      (fun q hq => by rw [alloc_find]; exact hall impl hm q hq) ho1 hok
    have hsize : s1.size_ = s.size_ := by
      rw [hs1]
      unfold Sheet.bookkeep Sheet.install
      simp only [hframe.2.2.2]
      unfold GetPrintableSize at hr hc
      have e1 : ¬ (p.row + 1 ≥ s.alloc.size_.rows) := by
        show ¬ (p.row + 1 ≥ s.size_.rows); omega
      have e2 : ¬ (p.col + 1 ≥ s.alloc.size_.cols) := by
        show ¬ (p.col + 1 ≥ s.size_.cols); omega
      simp only [e1, e2, if_false]
      rfl
    unfold GetPrintableSize at hr hc ⊢
    rw [hclear.2.2.2.2 (by rw [hsize]; exact hr) (by rw [hsize]; exact hc), hsize]

/-- C6 at a concrete input: on the sheet holding `x` at `B2`, `SetCell(A1, "y")` then
`ClearCell(A1)` leaves no cell at `A1` and the printable size `(2, 2)`. -/
theorem C6_set_then_clear_witness :
    (ClearCell (sheetAfter Demo.env 5 [Op.set B2 "x", Op.set A1 "y"]) A1).status = Status.ok ∧
    (ClearCell (sheetAfter Demo.env 5 [Op.set B2 "x", Op.set A1 "y"]) A1).st.find A1 = none ∧
    ((∀ impl, Cell.makeImpl Demo.env "y" = some impl →
        ∀ q ∈ impl.GetReferencedCells Demo.env,
          (sheetAfter Demo.env 5 [Op.set B2 "x"]).find q ≠ none) →
      A1.row + 1 < (GetPrintableSize (sheetAfter Demo.env 5 [Op.set B2 "x"])).rows →
      A1.col + 1 < (GetPrintableSize (sheetAfter Demo.env 5 [Op.set B2 "x"])).cols →
      GetPrintableSize (ClearCell (sheetAfter Demo.env 5 [Op.set B2 "x", Op.set A1 "y"]) A1).st
        = GetPrintableSize (sheetAfter Demo.env 5 [Op.set B2 "x"])) :=
  C6_set_then_clear Demo.env (sheetAfter Demo.env 5 [Op.set B2 "x"]) A1 "y" 5
    (sheetAfter Demo.env 5 [Op.set B2 "x", Op.set A1 "y"]) rfl rfl

/-- C6 as stated fails, twice. On the empty sheet (printable size `(0, 0)`),
`SetCell(A1, "=B1")` and `ClearCell(A1)` return normally and leave no cell at `A1`, but the
placeholder at `B1` stays and the printable size is `(1, 1)`. On the sheet holding only `x` at
`B1` (printable size `(1, 2)`), `SetCell(A2, "y")` and `ClearCell(A2)` return normally and
leave no cell at `A2`, but the printable size is `(1, 1)`. -/
theorem C6_size_not_restored :
    (runOps Demo.env 5 Sheet.empty [Op.set A1 "=B1", Op.clear A1]).map
        (fun r => (r.2, r.1.find A1, r.1.find B1, GetPrintableSize Sheet.empty, GetPrintableSize r.1))
      = some ([Status.ok, Status.ok], none, some 1, ⟨0, 0⟩, ⟨1, 1⟩) ∧
    (runOps Demo.env 5 Sheet.empty [Op.set B1 "x"]).bind
        (fun r0 => (runOps Demo.env 5 r0.1 [Op.set A2 "y", Op.clear A2]).map
          (fun r => (r0.2, r0.1.find A2, r.2, r.1.find A2, GetPrintableSize r0.1,
            GetPrintableSize r.1)))
      = some ([Status.ok], none, [Status.ok, Status.ok], none, ⟨1, 2⟩, ⟨1, 1⟩) :=
  ⟨rfl, rfl⟩

/-! ## Cycle rejection -/

theorem mem_uniquePositions (x : Position) (l : List Position) (h : x ∈ uniquePositions l) :
    x ∈ l := by
  induction l with
  | nil => simp [uniquePositions] at h
  | cons a rest ih =>
    cases rest with
    | nil => simpa [uniquePositions] using h
    | cons b rest' =>
      simp only [uniquePositions] at h
      split at h
      · exact List.mem_cons_of_mem _ (ih h)
      · rcases List.mem_cons.mp h with h | h
        · exact h ▸ List.mem_cons_self _ _
        · exact List.mem_cons_of_mem _ (ih h)

theorem mem_insertSorted (x p : Position) (l : List Position) :
    x ∈ insertSorted p l ↔ x = p ∨ x ∈ l := by
  induction l with
  | nil => simp [insertSorted]
  | cons q qs ih =>
    simp only [insertSorted]
    split
    · simp only [List.mem_cons, ih]
      constructor
      · rintro (h | h | h)
        · exact Or.inr (Or.inl h)
        · exact Or.inl h
        · exact Or.inr (Or.inr h)
      · rintro (h | h | h)
        · exact Or.inr (Or.inl h)
        · exact Or.inl h
        · exact Or.inr (Or.inr h)
    · simp only [List.mem_cons]

theorem mem_sortPositions (x : Position) (l : List Position) : x ∈ sortPositions l ↔ x ∈ l := by
  induction l with
  | nil => simp [sortPositions]
  | cons a rest ih =>
    show x ∈ insertSorted a (sortPositions rest) ↔ _
    rw [mem_insertSorted, ih, List.mem_cons]

theorem refs_valid (E : Env) (impl : Impl) (q : Position) (h : q ∈ impl.GetReferencedCells E) :
    q.IsValid = true := by
  cases impl with
  | empty => simp [Impl.GetReferencedCells] at h
  | text v t => simp [Impl.GetReferencedCells] at h
  | formula v t c =>
    simp only [Impl.GetReferencedCells, Formula.GetReferencedCells] at h
    have h1 := mem_uniquePositions _ _ h
    rw [mem_sortPositions] at h1
    exact (List.mem_filter.mp h1).2

theorem makeImpl_empty (E : Env) : Cell.makeImpl E "" = some Impl.empty := rfl

theorem nested_cases (E : Env) (n : Nat) (s : Sheet) (pos : Position) (hp : pos.IsValid = true)
    (hf : s.find pos = none) :
    SetCell E n s pos "" = none ∨ SetCell E n s pos "" = some ⟨placeholder s pos, Status.ok⟩ := by
  match n with
  | 0 => exact Or.inl rfl
  | 1 =>
    left
    simp [SetCell, hp, hf, Cell.Set, makeImpl_empty, Impl.GetReferencedCells, linkReferenced,
      Cell.IsCircularDependency, circularLoop]
  | 2 =>
    left
    simp [SetCell, hp, hf, Cell.Set, makeImpl_empty, Impl.GetReferencedCells, linkReferenced,
      Cell.IsCircularDependency, circularLoop, alloc_cell_new, Cell.fresh, order_nil,
      visitDependents]
  | n + 3 =>
    right
    exact SetCell_fresh_plain E s pos "" Impl.empty n hp hf rfl rfl

theorem placeholder_find_self (s : Sheet) (pos : Position) (hf : s.find pos = none) :
    (placeholder s pos).find pos = some s.heap.length := by
  unfold placeholder
  rw [bookkeep_find, install_find, setCellAt_find, alloc_find, hf]
  simp

theorem linkReferenced_eq (E : Env) (n self : Nat) (l : List Position) (s : Sheet) (jc : Bool)
    (ep : Position) (hl : ∀ q ∈ l, q.IsValid = true) :
    linkReferenced (fun s' p t => SetCell E n s' p t) self l s jc ep = none ∨
    linkReferenced (fun s' p t => SetCell E n s' p t) self l s jc ep
      = some (⟨(linkAll self l s jc ep).1, Status.ok⟩, (linkAll self l s jc ep).2) := by
  induction l generalizing s jc ep with
  | nil => right; rfl
  | cons pos rest ih =>
    have hp := hl pos (List.mem_cons_self _ _)
    have hrest : ∀ q ∈ rest, q.IsValid = true := fun q hq => hl q (List.mem_cons_of_mem _ hq)
    simp only [linkReferenced, linkAll, GetCell, hp, Bool.not_true, Bool.false_eq_true, if_false]
    cases hf : s.find pos with
    | some c => exact ih _ _ _ hrest
    | none =>
      simp only
      rcases nested_cases E n s pos hp hf with h | h
      · left; rw [h]
      · rw [h]
        simp only [ne_eq, not_true_eq_false, if_false, placeholder_find_self s pos hf]
        exact ih _ _ _ hrest

theorem linkReferenced_fuel (E : Env) (n self : Nat) (l : List Position) (s : Sheet) (jc : Bool)
    (ep : Position) (hl : ∀ q ∈ l, q.IsValid = true) :
    linkReferenced (fun s' p t => SetCell E (n + 3) s' p t) self l s jc ep
      = some (⟨(linkAll self l s jc ep).1, Status.ok⟩, (linkAll self l s jc ep).2) := by
  induction l generalizing s jc ep with
  | nil => rfl
  | cons pos rest ih =>
    have hp := hl pos (List.mem_cons_self _ _)
    have hrest : ∀ q ∈ rest, q.IsValid = true := fun q hq => hl q (List.mem_cons_of_mem _ hq)
    simp only [linkReferenced, linkAll, GetCell, hp, Bool.not_true, Bool.false_eq_true, if_false]
    cases hf : s.find pos with
    | some c => exact ih _ _ _ hrest
    | none =>
      simp only
      rw [SetCell_fresh_plain E s pos "" Impl.empty n hp hf rfl rfl]
      simp only [ne_eq, not_true_eq_false, if_false]
      have := placeholder_find_self s pos hf
      unfold placeholder at this
      simp only [this]
      exact ih _ _ _ hrest

theorem map_invalidate_empty (o : Option Impl)
    (h : o.map Impl.InvalidateCache = some Impl.empty) : o = some Impl.empty := by
  cases o with
  | none => cases h
  | some i => cases i <;> simp [Impl.InvalidateCache] at h ⊢

theorem grows_refl (s : Sheet) : s.Grows s :=
  ⟨Nat.le_refl _, fun _ _ h => h, fun _ _ h => Or.inl h, fun _ _ => ⟨fun _ h => h, rfl⟩⟩

theorem grows_trans {a b c : Sheet} (h1 : a.Grows b) (h2 : b.Grows c) : a.Grows c := by
  obtain ⟨a1, a2, a3, a4⟩ := h1
  obtain ⟨b1, b2, b3, b4⟩ := h2
  refine ⟨Nat.le_trans a1 b1, fun q i h => b2 q i (a2 q i h), fun q i h => ?_, fun i hi => ?_⟩
  · rcases b3 q i h with h' | ⟨hn, hl, hu, he, huniq⟩
    · rcases a3 q i h' with h'' | ⟨hn, hl, hu, he, huniq⟩
      · exact Or.inl h''
      · refine Or.inr ⟨hn, hl, Nat.lt_of_lt_of_le hu b1, ?_, fun x hx => ?_⟩
        · apply map_invalidate_empty
          rw [(b4 i hu).2, he]; rfl
        · rcases b3 x i hx with hx' | ⟨_, hxl, _⟩
          · exact huniq x hx'
          · omega
    · refine Or.inr ⟨?_, Nat.le_trans a1 hl, hu, he, huniq⟩
      cases ha : a.find q with
      | none => rfl
      | some j => rw [a2 q j ha] at hn; cases hn
  · have hi' : i < b.heap.length := Nat.lt_of_lt_of_le hi a1
    exact ⟨fun x hx => (b4 i hi').1 x ((a4 i hi).1 x hx), (b4 i hi').2.trans (a4 i hi).2⟩

theorem grows_of_same {s s' : Sheet} (h : s.SameUpToCache s') : s.Grows s' := by
  obtain ⟨h1, _, _, _, h5, h6⟩ := h
  have hf : ∀ q, s'.find q = s.find q := fun q => by simp [Sheet.find, h1]
  refine ⟨by omega, fun q i hq => by rw [hf]; exact hq, fun q i hq => Or.inl (by rw [← hf]; exact hq),
    fun i _ => ⟨fun x hx => ?_, (h6 i).2.2⟩⟩
  rw [(h6 i).1]; exact hx

theorem mem_setInsert (l : List Nat) (x y : Nat) : y ∈ setInsert l x ↔ y ∈ l ∨ y = x := by
  unfold setInsert
  split
  · next h =>
    constructor
    · exact Or.inl
    · rintro (h' | h')
      · exact h'
      · exact h' ▸ h
  · simp

theorem linkCells_cell (s : Sheet) (self c i : Nat) :
    ((linkCells s self c).cell i).impl_ = (s.cell i).impl_ ∧
    (∀ x ∈ (s.cell i).references_, x ∈ ((linkCells s self c).cell i).references_) ∧
    (i ≠ c → ((linkCells s self c).cell i).references_ = (s.cell i).references_) ∧
    (i = c → c < s.heap.length → self ∈ ((linkCells s self c).cell i).references_) := by
  unfold linkCells
  simp only [cell_setCellAt, setCellAt_length]
  refine ⟨?_, ?_, ?_, ?_⟩
  · split
    · split <;> simp_all
    · split <;> simp_all
  · intro x hx
    split
    · simp only [mem_setInsert]
      left
      split <;> simp_all
    · split <;> simp_all
  · intro hne
    have : ¬ (c = i ∧ c < s.heap.length) := fun h => hne h.1.symm
    simp only [this, if_false]
    split <;> simp_all
  · intro he hc
    subst he
    simp only [hc, and_self, if_true, mem_setInsert]
    right; trivial

theorem grows_linkCells (s : Sheet) (self c : Nat) : s.Grows (linkCells s self c) :=
  ⟨by rw [linkCells_length], fun _ _ h => h, fun _ _ h => Or.inl h,
    fun i _ => ⟨(linkCells_cell s self c i).2.1, by rw [(linkCells_cell s self c i).1]⟩⟩

theorem placeholder_length (s : Sheet) (pos : Position) :
    (placeholder s pos).heap.length = s.heap.length + 1 := by
  simp [placeholder, Sheet.bookkeep, Sheet.install, Sheet.setCellAt, Sheet.alloc]

theorem placeholder_find (s : Sheet) (pos q : Position) :
    (placeholder s pos).find q = match s.find q with
      | some j => some j
      | none => if q = pos then some s.heap.length else none := by
  unfold placeholder
  rw [bookkeep_find, install_find, setCellAt_find, alloc_find]

theorem placeholder_cell_old (s : Sheet) (pos : Position) (i : Nat) (h : i < s.heap.length) :
    (placeholder s pos).cell i = s.cell i := by
  unfold placeholder
  rw [cell_congr (bookkeep_heap _ _), cell_congr (install_heap _ _ _),
    cell_setCellAt_other _ _ _ _ (by omega), alloc_cell_old s i h]

theorem placeholder_cell_new (s : Sheet) (pos : Position) :
    (placeholder s pos).cell s.heap.length = ⟨some Impl.empty, [], []⟩ := by
  unfold placeholder
  rw [cell_congr (bookkeep_heap _ _), cell_congr (install_heap _ _ _),
    cell_setCellAt_same _ _ _ (by rw [alloc_length]; omega)]
  rfl

theorem grows_placeholder (s : Sheet) (pos : Position) (hlive : s.PointersLive) :
    s.Grows (placeholder s pos) := by
  refine ⟨by rw [placeholder_length]; omega, fun q i hq => ?_, fun q i hq => ?_, fun i hi => ?_⟩
  · rw [placeholder_find, hq]
  · rw [placeholder_find] at hq
    cases hs : s.find q with
    | some j => rw [hs] at hq; exact Or.inl hq
    | none =>
      rw [hs] at hq
      simp only at hq
      split at hq
      · next hqp =>
        simp only [Option.some.injEq] at hq
        subst hq hqp
        refine Or.inr ⟨rfl, Nat.le_refl _, by rw [placeholder_length]; omega,
          by rw [placeholder_cell_new], fun b hb => ?_⟩
        rw [placeholder_find] at hb
        cases hsb : s.find b with
        | some j =>
          rw [hsb] at hb
          simp only [Option.some.injEq] at hb
          have := hlive b j hsb
          omega
        | none =>
          rw [hsb] at hb
          simp only at hb
          split at hb
          · assumption
          · cases hb
      · cases hq
  · rw [placeholder_cell_old s pos i hi]
    exact ⟨fun _ h => h, rfl⟩

theorem live_linkCells (s : Sheet) (self c : Nat) (h : s.PointersLive) :
    (linkCells s self c).PointersLive := by
  intro q i hq
  rw [linkCells_length]
  exact h q i hq

theorem live_placeholder (s : Sheet) (pos : Position) (h : s.PointersLive) :
    (placeholder s pos).PointersLive := by
  intro q i hq
  rw [placeholder_length]
  rw [placeholder_find] at hq
  cases hs : s.find q with
  | some j =>
    rw [hs] at hq
    simp only [Option.some.injEq] at hq
    have := h q j hs
    omega
  | none =>
    rw [hs] at hq
    simp only at hq
    split at hq
    · simp only [Option.some.injEq] at hq; omega
    · cases hq

theorem linkAll_grows (self : Nat) (l : List Position) (s : Sheet) (jc : Bool) (ep : Position)
    (hlive : s.PointersLive) :
    s.Grows (linkAll self l s jc ep).1 ∧ (linkAll self l s jc ep).1.PointersLive := by
  induction l generalizing s jc ep with
  | nil => exact ⟨grows_refl s, hlive⟩
  | cons pos rest ih =>
    simp only [linkAll]
    cases hf : s.find pos with
    | some c =>
      simp only
      have := ih (linkCells s self c) jc ep (live_linkCells s self c hlive)
      exact ⟨grows_trans (grows_linkCells s self c) this.1, this.2⟩
    | none =>
      simp only
      have := ih (linkCells (placeholder s pos) self s.heap.length) true pos
        (live_linkCells _ _ _ (live_placeholder s pos hlive))
      exact ⟨grows_trans (grows_trans (grows_placeholder s pos hlive) (grows_linkCells _ _ _))
        this.1, this.2⟩

theorem linkAll_linked (self : Nat) (l : List Position) (s : Sheet) (jc : Bool) (ep : Position)
    (hlive : s.PointersLive) (b : Position) (hb : b ∈ l) :
    ∃ ib, (linkAll self l s jc ep).1.find b = some ib ∧
      self ∈ ((linkAll self l s jc ep).1.cell ib).references_ := by
  induction l generalizing s jc ep with
  | nil => cases hb
  | cons pos rest ih =>
    simp only [linkAll]
    cases hf : s.find pos with
    | some c =>
      simp only
      rcases List.mem_cons.mp hb with h | h
      · subst h
        have hg := linkAll_grows self rest (linkCells s self c) jc ep (live_linkCells s self c hlive)
        have hc : c < s.heap.length := hlive b c hf
        refine ⟨c, hg.1.2.1 b c hf, ?_⟩
        exact (hg.1.2.2.2 c (by rw [linkCells_length]; exact hc)).1 self
          ((linkCells_cell s self c c).2.2.2 rfl hc)
      · exact ih _ _ _ (live_linkCells s self c hlive) h
    | none =>
      simp only
      have hlive' := live_linkCells (placeholder s pos) self s.heap.length
        (live_placeholder s pos hlive)
      rcases List.mem_cons.mp hb with h | h
      · subst h
        have hg := linkAll_grows self rest (linkCells (placeholder s b) self s.heap.length) true b
          hlive'
        have hc : s.heap.length < (placeholder s b).heap.length := by
          rw [placeholder_length]; omega
        refine ⟨s.heap.length, hg.1.2.1 b _ (placeholder_find_self s b hf), ?_⟩
        exact (hg.1.2.2.2 _ (by rw [linkCells_length]; exact hc)).1 self
          ((linkCells_cell _ self _ _).2.2.2 rfl hc)
      · exact ih _ _ _ hlive' h

theorem linkAll_created (self : Nat) (l : List Position) (s : Sheet) (jc : Bool) (ep : Position)
    (hlive : s.PointersLive) (hl : ∀ q ∈ l, q.IsValid = true) :
    ((linkAll self l s jc ep).2.1 = jc ∧ (linkAll self l s jc ep).2.2 = ep ∧
      s.SameTable (linkAll self l s jc ep).1) ∨
    ((linkAll self l s jc ep).2.1 = true ∧ (linkAll self l s jc ep).1.rows_ ≠ [] ∧
      (linkAll self l s jc ep).1.cols_ ≠ [] ∧ (linkAll self l s jc ep).2.2.IsValid = true ∧
      s.find (linkAll self l s jc ep).2.2 = none ∧
      ∃ e, (linkAll self l s jc ep).1.find (linkAll self l s jc ep).2.2 = some e ∧
        s.heap.length ≤ e) := by
  induction l generalizing s jc ep with
  | nil => exact Or.inl ⟨rfl, rfl, sameTable_refl s⟩
  | cons pos rest ih =>
    have hrest : ∀ q ∈ rest, q.IsValid = true := fun q hq => hl q (List.mem_cons_of_mem _ hq)
    simp only [linkAll]
    cases hf : s.find pos with
    | some c =>
      simp only
      rcases ih (linkCells s self c) jc ep (live_linkCells s self c hlive) hrest with h | h
      · exact Or.inl ⟨h.1, h.2.1, sameTable_trans ⟨rfl, rfl, rfl, rfl⟩ h.2.2⟩
      · obtain ⟨h1, h2, h3, h4, h5, e, h6, h7⟩ := h
        exact Or.inr ⟨h1, h2, h3, h4, h5, e, h6, by rw [linkCells_length] at h7; exact h7⟩
    | none =>
      simp only
      right
      have hlive' := live_linkCells (placeholder s pos) self s.heap.length
        (live_placeholder s pos hlive)
      rcases ih (linkCells (placeholder s pos) self s.heap.length) true pos hlive' hrest with h | h
      · obtain ⟨h1, h2, h3, h4, h5, h6⟩ := h
        refine ⟨h1, ?_, ?_, ?_, ?_, s.heap.length, ?_, Nat.le_refl _⟩
        · rw [h4]; exact bookkeep_rows_ne _ _
        · rw [h5]; exact bookkeep_cols_ne _ _
        · rw [h2]; exact hl pos (List.mem_cons_self _ _)
        · rw [h2]; exact hf
        · rw [h2]
          simp only [Sheet.find, h3]
          exact placeholder_find_self s pos hf
      · obtain ⟨h1, h2, h3, h4, h5, e, h6, h7⟩ := h
        refine ⟨h1, h2, h3, h4, ?_, e, h6, ?_⟩
        · have h5' : (placeholder s pos).find _ = none := h5
          rw [placeholder_find] at h5'
          cases hs : s.find (linkAll self rest (linkCells (placeholder s pos) self s.heap.length)
              true pos).2.2 with
          | none => rfl
          | some j => rw [hs] at h5'; cases h5'
        · rw [linkCells_length, placeholder_length] at h7; omega

theorem linkAll_untouched (self : Nat) (l : List Position) (s : Sheet) (jc : Bool) (ep : Position)
    (hself : self < s.heap.length) (hns : ∀ q, s.find q ≠ some self) :
    ((linkAll self l s jc ep).1.cell self).references_ = (s.cell self).references_ := by
  induction l generalizing s jc ep with
  | nil => rfl
  | cons pos rest ih =>
    simp only [linkAll]
    cases hf : s.find pos with
    | some c =>
      simp only
      have hne : self ≠ c := fun h => hns pos (h ▸ hf)
      rw [ih (linkCells s self c) jc ep (by rw [linkCells_length]; exact hself) hns]
      exact (linkCells_cell s self c self).2.2.1 hne
    | none =>
      simp only
      have hne : self ≠ s.heap.length := by omega
      rw [ih (linkCells (placeholder s pos) self s.heap.length) true pos
        (by rw [linkCells_length, placeholder_length]; omega)
        (fun q hq => by
          have hq' : (placeholder s pos).find q = some self := hq
          rw [placeholder_find] at hq'
          cases hs : s.find q with
          | some j => rw [hs] at hq'; exact hns q (hs.trans hq')
          | none =>
            rw [hs] at hq'
            simp only at hq'
            split at hq'
            · simp only [Option.some.injEq] at hq'; omega
            · cases hq')]
      rw [(linkCells_cell _ self _ self).2.2.1 hne, placeholder_cell_old s pos self hself]

theorem hasDependents_iff (s : Sheet) (c : Nat) :
    s.hasDependents c = true ↔ (s.cell c).references_ ≠ [] := by
  simp [Sheet.hasDependents]

theorem order_ne_nil (E : Env) (l : List Nat) (h : l ≠ []) : E.order l ≠ [] := by
  intro h'
  have := (E.order_perm l).length_eq
  rw [h'] at this
  exact h (List.length_eq_zero.mp this.symm)

theorem visit_inr (s : Sheet) (l vis dq vis' dq' : List Nat)
    (h : visitDependents s l vis dq = Sum.inr (vis', dq')) :
    (∀ x ∈ l, x ∉ vis) ∧ l.Nodup ∧ vis' = l.reverse ++ vis ∧
    dq' = (l.filter s.hasDependents).reverse ++ dq := by
  induction l generalizing vis dq with
  | nil =>
    simp only [visitDependents, Sum.inr.injEq, Prod.mk.injEq] at h
    obtain ⟨rfl, rfl⟩ := h
    simp
  | cons c rest ih =>
    simp only [visitDependents] at h
    split at h
    · cases h
    · next hc =>
      obtain ⟨h1, h2, h3, h4⟩ := ih _ _ h
      refine ⟨?_, ?_, ?_, ?_⟩
      · intro x hx
        rcases List.mem_cons.mp hx with hx | hx
        · subst hx; exact hc
        · exact fun hv => h1 x hx (List.mem_cons_of_mem _ hv)
      · refine List.nodup_cons.mpr ⟨fun hmem => h1 c hmem (List.mem_cons_self _ _), h2⟩
      · rw [h3]; simp
      · rw [h4]
        cases hn : s.hasDependents c <;> simp [List.filter_cons, hn]

theorem visit_inl_some (s : Sheet) (l vis dq : List Nat) (c : Option Nat)
    (h : visitDependents s l vis dq = Sum.inl c) (hdq : dq ≠ []) : ∃ x, c = some x := by
  induction l generalizing vis dq with
  | nil => simp [visitDependents] at h
  | cons a rest ih =>
    simp only [visitDependents] at h
    split at h
    · simp only [Sum.inl.injEq] at h
      cases dq with
      | nil => exact absurd rfl hdq
      | cons d ds => exact ⟨d, by rw [← h]; rfl⟩
    · refine ih _ _ h ?_
      split <;> simp [hdq]

theorem loop_true_some (E : Env) (s : Sheet) (fuel : Nat) (vis dq : List Nat) (c : Option Nat)
    (h : circularLoop E s fuel vis dq = some (true, c)) : ∃ x, c = some x := by
  induction fuel generalizing vis dq with
  | zero => simp [circularLoop] at h
  | succ n ih =>
    simp only [circularLoop] at h
    split at h
    · cases h
    · next front tl =>
      split at h
      · next culprit hv =>
        simp only [Option.some.injEq, Prod.mk.injEq, true_and] at h
        subst h
        exact visit_inl_some s _ _ _ _ hv (by simp)
      · exact ih _ _ h

theorem loop_revisit (E : Env) (s : Sheet) (n : Nat) (vis tl : List Nat) (f : Nat)
    (hne : (s.cell f).references_ ≠ []) (hall : ∀ x ∈ (s.cell f).references_, x ∈ vis)
    (c : Option Nat) : circularLoop E s n vis (f :: tl) ≠ some (false, c) := by
  cases n with
  | zero => simp [circularLoop]
  | succ n =>
    have hne' := order_ne_nil E _ hne
    cases ho : E.order (s.cell f).references_ with
    | nil => exact absurd ho hne'
    | cons x xs =>
      have hx : x ∈ vis := hall x ((mem_order E _ x).mp (by rw [ho]; exact List.mem_cons_self _ _))
      simp [circularLoop, ho, visitDependents, hx]

theorem loop_crowded (E : Env) (s : Sheet) (fuel : Nat) (vis dq : List Nat)
    (hlen : 2 ≤ dq.length) (hfront : ∀ f, dq.head? = some f → (s.cell f).references_ ≠ [])
    (c : Option Nat) : circularLoop E s fuel vis dq ≠ some (false, c) := by
  induction fuel generalizing vis dq with
  | zero => simp [circularLoop]
  | succ n ih =>
    match dq, hlen, hfront with
    | f :: g :: rest, _, hfront =>
      have hf := hfront f rfl
      simp only [circularLoop]
      split
      · simp
      · next vis' dq' hv =>
        obtain ⟨h1, h2, h3, h4⟩ := visit_inr s _ _ _ _ _ hv
        subst h4
        rw [List.dropLast_append_of_ne_nil _ (by simp),
          List.dropLast_cons_of_ne_nil (by simp)]
        cases hP : (List.filter s.hasDependents (E.order (s.cell f).references_)).reverse with
        | nil =>
          simp only [List.nil_append]
          refine loop_revisit E s n vis' _ f hf (fun x hx => ?_) c
          rw [h3]
          exact List.mem_append_left _ (List.mem_reverse.mpr ((mem_order E _ x).mpr hx))
        | cons h t =>
          refine ih vis' _ (by simp; omega) (fun f' hf' => ?_)
          simp only [List.cons_append, List.head?_cons, Option.some.injEq] at hf'
          subst hf'
          have hmem : h ∈ (List.filter s.hasDependents (E.order (s.cell f).references_)).reverse := by
            rw [hP]; exact List.mem_cons_self _ _
          rw [List.mem_reverse, List.mem_filter] at hmem
          exact (hasDependents_iff s h).mp hmem.2

theorem closed_no_cycle (s : Sheet) (self : Nat) (vis : List Nat) (hself : self ∈ vis)
    (hclosed : ∀ v ∈ vis, (∀ x ∈ (s.cell v).references_, x ∈ vis) ∧
      self ∉ (s.cell v).references_) : ¬ s.CycleThrough self := by
  rintro ⟨v, hreach, hv⟩
  have hmem : v ∈ vis := by
    clear hv
    induction hreach with
    | refl => exact hself
    | tail _ hstep ih => exact (hclosed _ ih).1 _ hstep
  exact (hclosed v hmem).2 hv

theorem loop_false_no_cycle (E : Env) (s : Sheet) (self fuel : Nat) (vis dq : List Nat)
    (hlen : dq.length ≤ 1) (hself : self ∈ vis)
    (hinv : ∀ v ∈ vis, v ∈ dq ∨ ((∀ x ∈ (s.cell v).references_, x ∈ vis) ∧
      self ∉ (s.cell v).references_))
    (c : Option Nat) (h : circularLoop E s fuel vis dq = some (false, c)) :
    ¬ s.CycleThrough self := by
  induction fuel generalizing vis dq with
  | zero => simp [circularLoop] at h
  | succ n ih =>
    match dq, hlen with
    | [], _ =>
      refine closed_no_cycle s self vis hself (fun v hv => ?_)
      rcases hinv v hv with h' | h'
      · cases h'
      · exact h'
    | [f], _ =>
      simp only [circularLoop] at h
      split at h
      · cases h
      · next vis' dq' hv =>
        obtain ⟨h1, h2, h3, h4⟩ := visit_inr s _ _ _ _ _ hv
        subst h4
        rw [List.dropLast_concat] at h
        by_cases hP : 2 ≤ (List.filter s.hasDependents (E.order (s.cell f).references_)).reverse.length
        · refine absurd h (loop_crowded E s n vis' _ hP (fun f' hf' => ?_) c)
          have hmem := List.mem_of_mem_head? hf'
          rw [List.mem_reverse, List.mem_filter] at hmem
          exact (hasDependents_iff s f').mp hmem.2
        · refine ih vis' _ (by omega) (by rw [h3]; exact List.mem_append_right _ hself)
            (fun v hv' => ?_) h
          rw [h3] at hv'
          rcases List.mem_append.mp hv' with hv' | hv'
          · rw [List.mem_reverse] at hv'
            by_cases hd : s.hasDependents v = true
            · exact Or.inl (List.mem_reverse.mpr (List.mem_filter.mpr ⟨hv', hd⟩))
            · have hnil : (s.cell v).references_ = [] := by
                by_contra hne
                exact hd ((hasDependents_iff s v).mpr hne)
              right
              rw [hnil]
              exact ⟨fun x hx => absurd hx (List.not_mem_nil x), List.not_mem_nil self⟩
          · have hproc : (∀ x ∈ (s.cell f).references_, x ∈ vis') ∧
                self ∉ (s.cell f).references_ := by
              refine ⟨fun x hx => ?_, fun hx => ?_⟩
              · rw [h3]
                exact List.mem_append_left _ (List.mem_reverse.mpr ((mem_order E _ x).mpr hx))
              · exact h1 self ((mem_order E _ self).mpr hx) hself
            rcases hinv v hv' with h' | h'
            · rw [List.mem_singleton] at h'
              subst h'
              exact Or.inr hproc
            · refine Or.inr ⟨fun x hx => ?_, h'.2⟩
              rw [h3]
              exact List.mem_append_right _ (h'.1 x hx)

theorem circular_complete (E : Env) (s : Sheet) (self fuel : Nat) (hc : s.CycleThrough self)
    (c : Option Nat) : Cell.IsCircularDependency E fuel s self ≠ some (false, c) := by
  intro h
  exact loop_false_no_cycle E s self fuel [self] [self] (by simp) (by simp)
    (fun v hv => Or.inl hv) c h hc

theorem mem_allDependents (s : Sheet) (i x : Nat) (h : x ∈ (s.cell i).references_) :
    x ∈ s.allDependents := by
  unfold Sheet.cell at h
  rw [List.getD_eq_getElem?_getD] at h
  cases hc : s.heap[i]? with
  | none => rw [hc] at h; simp [Cell.fresh] at h
  | some c =>
    rw [hc] at h
    simp only [Option.getD_some] at h
    unfold Sheet.allDependents
    rw [List.mem_flatten]
    exact ⟨c.references_, List.mem_map_of_mem _ (List.getElem?_mem hc), h⟩

theorem loop_terminates (E : Env) (s : Sheet) (self k fuel : Nat) (vis dq : List Nat)
    (hnd : vis.Nodup) (hsub : ∀ x ∈ vis, x ∈ self :: s.allDependents)
    (hdq : ∀ x ∈ dq, (s.cell x).references_ ≠ [])
    (hk : (self :: s.allDependents).length - vis.length < k) (hfuel : k < fuel) :
    circularLoop E s fuel vis dq ≠ none := by
  induction k generalizing fuel vis dq with
  | zero => omega
  | succ k ih =>
    cases fuel with
    | zero => omega
    | succ n =>
      simp only [circularLoop]
      split
      · simp
      · next f tl =>
        split
        · simp
        · next vis' dq' hv =>
          obtain ⟨h1, h2, h3, h4⟩ := visit_inr s _ _ _ _ _ hv
          have hf := hdq f (List.mem_cons_self _ _)
          have hlen : 1 ≤ (E.order (s.cell f).references_).length := by
            have := order_ne_nil E _ hf
            cases ho : E.order (s.cell f).references_ with
            | nil => exact absurd ho this
            | cons a b => simp
          have hnd' : vis'.Nodup := by
            rw [h3]
            refine List.Nodup.append (List.nodup_reverse.mpr h2) hnd ?_
            intro x hx hx'
            exact h1 x (List.mem_reverse.mp hx) hx'
          have hsub' : ∀ x ∈ vis', x ∈ self :: s.allDependents := by
            intro x hx
            rw [h3] at hx
            rcases List.mem_append.mp hx with hx | hx
            · exact List.mem_cons_of_mem _
                (mem_allDependents s f x ((mem_order E _ x).mp (List.mem_reverse.mp hx)))
            · exact hsub x hx
          have hle : vis'.length ≤ (self :: s.allDependents).length :=
            (hnd'.subperm hsub').length_le
          have hgrow : vis'.length = (E.order (s.cell f).references_).length + vis.length := by
            rw [h3]; simp
          refine ih n vis' _ hnd' hsub' (fun x hx => ?_) (by omega) (by omega)
          have hx' := List.dropLast_subset _ hx
          rw [h4] at hx'
          rcases List.mem_append.mp hx' with hx' | hx'
          · rw [List.mem_reverse, List.mem_filter] at hx'
            exact (hasDependents_iff s x).mp hx'.2
          · exact hdq x hx'

theorem circular_detects (E : Env) (s : Sheet) (self fuel : Nat) (hc : s.CycleThrough self)
    (hfuel : s.allDependents.length + 2 ≤ fuel) :
    ∃ x, Cell.IsCircularDependency E fuel s self = some (true, some x) := by
  have hne : (s.cell self).references_ ≠ [] := by
    obtain ⟨v, hreach, hv⟩ := hc
    intro hnil
    cases hreach.cases_head with
    | inl h => rw [← h, hnil] at hv; cases hv
    | inr h =>
      obtain ⟨c, hstep, _⟩ := h
      rw [hnil] at hstep
      cases hstep
  have hterm : Cell.IsCircularDependency E fuel s self ≠ none :=
    loop_terminates E s self (s.allDependents.length + 1) fuel [self] [self] (by simp)
      (by simp) (by simpa using hne) (by simp) (by omega)
  cases hr : Cell.IsCircularDependency E fuel s self with
  | none => exact absurd hr hterm
  | some r =>
    obtain ⟨b, c⟩ := r
    cases b with
    | false => exact absurd hr (circular_complete E s self fuel hc c)
    | true =>
      obtain ⟨x, hx⟩ := loop_true_some E s fuel [self] [self] c hr
      exact ⟨x, by rw [hx]⟩

theorem invalidate_refs (E : Env) (i : Impl) :
    i.InvalidateCache.GetReferencedCells E = i.GetReferencedCells E := by
  cases i <;> rfl

theorem invalidate_text (i : Impl) : i.InvalidateCache.GetText = i.GetText := by
  cases i <;> rfl

theorem same_content (E : Env) (o o' : Option Impl)
    (h : o'.map Impl.InvalidateCache = o.map Impl.InvalidateCache) (impl : Impl)
    (ho : o' = some impl) :
    ∃ impl0, o = some impl0 ∧ impl0.GetReferencedCells E = impl.GetReferencedCells E ∧
      impl0.GetText = impl.GetText := by
  subst ho
  cases o with
  | none => cases h
  | some impl0 =>
    simp only [Option.map_some', Option.some.injEq] at h
    refine ⟨impl0, rfl, ?_, ?_⟩
    · rw [← invalidate_refs E impl0, ← h, invalidate_refs]
    · rw [← invalidate_text impl0, ← h, invalidate_text]

theorem linked_grows (E : Env) (s s' : Sheet) (hs : s.Linked E) (hg : s.Grows s') :
    s'.Linked E := by
  obtain ⟨hlive, hinj, hedge⟩ := hs
  obtain ⟨g1, g2, g3, g5⟩ := hg
  refine ⟨fun q i hq => ?_, fun a b i ha hb => ?_, fun a ia impl b ha himpl hb => ?_⟩
  · rcases g3 q i hq with h | ⟨_, _, h, _⟩
    · exact Nat.lt_of_lt_of_le (hlive q i h) g1
    · exact h
  · rcases g3 a i ha with h | ⟨_, hl, _, _, huniq⟩
    · rcases g3 b i hb with h' | ⟨_, hl', _, _, _⟩
      · exact hinj a b i h h'
      · have := hlive a i h; omega
    · exact (huniq b hb).symm
  · rcases g3 a ia ha with h | ⟨_, _, _, he, _⟩
    · have hia := hlive a ia h
      obtain ⟨impl0, h0, hr, _⟩ := same_content E _ _ (g5 ia hia).2 impl himpl
      obtain ⟨ib, hfb, hmem⟩ := hedge a ia impl0 b h h0 (by rw [hr]; exact hb)
      exact ⟨ib, g2 b ib hfb, (g5 ib (hlive b ib hfb)).1 ia hmem⟩
    · rw [he] at himpl
      simp only [Option.some.injEq] at himpl
      subst himpl
      simp [Impl.GetReferencedCells] at hb

theorem commit_cell (s : Sheet) (self : Nat) (x : Option Impl) (j : Nat) :
    ((s.setCellAt self { s.cell self with impl_ := x }).cell j).references_
      = (s.cell j).references_ ∧
    (j ≠ self → (s.setCellAt self { s.cell self with impl_ := x }).cell j = s.cell j) := by
  rw [cell_setCellAt]
  refine ⟨?_, fun hne => ?_⟩
  · split
    · next h => rw [h.1]
    · rfl
  · have : ¬ (self = j ∧ self < s.heap.length) := fun h => hne h.1.symm
    simp [this]

theorem linked_commit (E : Env) (s2 : Sheet) (self : Nat) (impl : Impl)
    (hs : s2.Linked E) (hself : self < s2.heap.length)
    (hlinks : ∀ b ∈ impl.GetReferencedCells E,
      ∃ ib, s2.find b = some ib ∧ self ∈ (s2.cell ib).references_) :
    (s2.setCellAt self { s2.cell self with impl_ := some impl }).Linked E := by
  obtain ⟨hlive, hinj, hedge⟩ := hs
  refine ⟨fun q i hq => by rw [setCellAt_length]; exact hlive q i hq, hinj,
    fun a ia impl' b ha himpl hb => ?_⟩
  rw [setCellAt_find] at ha
  by_cases hia : ia = self
  · subst hia
    rw [cell_setCellAt_same _ _ _ hself] at himpl
    simp only [Option.some.injEq] at himpl
    subst himpl
    obtain ⟨ib, h1, h2⟩ := hlinks b hb
    exact ⟨ib, h1, by rw [(commit_cell s2 ia _ ib).1]; exact h2⟩
  · rw [(commit_cell s2 self _ ia).2 hia] at himpl
    obtain ⟨ib, h1, h2⟩ := hedge a ia impl' b ha himpl hb
    exact ⟨ib, h1, by rw [(commit_cell s2 self _ ib).1]; exact h2⟩

theorem linked_install (E : Env) (s2 : Sheet) (self : Nat) (impl : Impl) (p : Position)
    (hs : s2.Linked E) (hself : self < s2.heap.length)
    (hns : ∀ q, s2.find q ≠ some self)
    (hlinks : ∀ b ∈ impl.GetReferencedCells E,
      ∃ ib, s2.find b = some ib ∧ self ∈ (s2.cell ib).references_) :
    (((s2.setCellAt self { s2.cell self with impl_ := some impl }).install p self).bookkeep
      p).Linked E := by
  obtain ⟨hlive, hinj, hedge⟩ := hs
  have hfind : ∀ q i, (((s2.setCellAt self { s2.cell self with impl_ := some impl }).install p
      self).bookkeep p).find q = some i → s2.find q = some i ∨ (q = p ∧ i = self) := by
    intro q i hq
    rw [bookkeep_find, install_find, setCellAt_find] at hq
    cases h2 : s2.find q with
    | some j => rw [h2] at hq; exact Or.inl hq
    | none =>
      rw [h2] at hq
      simp only at hq
      split at hq
      · next hqp => simp only [Option.some.injEq] at hq; exact Or.inr ⟨hqp, hq.symm⟩
      · cases hq
  have hfind' : ∀ q i, s2.find q = some i →
      (((s2.setCellAt self { s2.cell self with impl_ := some impl }).install p
        self).bookkeep p).find q = some i := by
    intro q i hq
    rw [bookkeep_find, install_find, setCellAt_find, hq]
  have hcell : ∀ j, (((s2.setCellAt self { s2.cell self with impl_ := some impl }).install p
      self).bookkeep p).cell j
        = (s2.setCellAt self { s2.cell self with impl_ := some impl }).cell j := fun j =>
    (cell_congr (bookkeep_heap _ _) j).trans (cell_congr (install_heap _ _ _) j)
  refine ⟨fun q i hq => ?_, fun a b i ha hb => ?_, fun a ia impl' b ha himpl hb => ?_⟩
  · rw [bookkeep_heap, install_heap, setCellAt_length]
    rcases hfind q i hq with h | ⟨_, h⟩
    · exact hlive q i h
    · rw [h]; exact hself
  · rcases hfind a i ha with h | ⟨h1, h2⟩
    · rcases hfind b i hb with h' | ⟨h1', h2'⟩
      · exact hinj a b i h h'
      · exact absurd (h2' ▸ h) (hns a)
    · rcases hfind b i hb with h' | ⟨h1', h2'⟩
      · exact absurd (h2 ▸ h') (hns b)
      · rw [h1, h1']
  · rw [hcell] at himpl
    rcases hfind a ia ha with h | ⟨h1, h2⟩
    · have hia : ia ≠ self := fun he => hns a (he ▸ h)
      rw [(commit_cell s2 self _ ia).2 hia] at himpl
      obtain ⟨ib, hb1, hb2⟩ := hedge a ia impl' b h himpl hb
      exact ⟨ib, hfind' b ib hb1, by rw [hcell, (commit_cell s2 self _ ib).1]; exact hb2⟩
    · subst h2
      rw [cell_setCellAt_same _ _ _ hself] at himpl
      simp only [Option.some.injEq] at himpl
      subst himpl
      obtain ⟨ib, hb1, hb2⟩ := hlinks b hb
      exact ⟨ib, hfind' b ib hb1, by rw [hcell, (commit_cell s2 ia _ ib).1]; exact hb2⟩

theorem linked_alloc (E : Env) (s : Sheet) (hs : s.Linked E) : s.alloc.Linked E := by
  obtain ⟨hlive, hinj, hedge⟩ := hs
  refine ⟨fun q i hq => ?_, hinj, fun a ia impl b ha himpl hb => ?_⟩
  · rw [alloc_length]
    have := hlive q i hq
    omega
  · rw [alloc_find] at ha
    rw [alloc_cell_old s ia (hlive a ia ha)] at himpl
    obtain ⟨ib, h1, h2⟩ := hedge a ia impl b ha himpl hb
    exact ⟨ib, h1, by rw [alloc_cell_old s ib (hlive b ib h1)]; exact h2⟩

theorem linked_bookkeep (E : Env) (s : Sheet) (p : Position) (hs : s.Linked E) :
    (s.bookkeep p).Linked E := by
  obtain ⟨hlive, hinj, hedge⟩ := hs
  exact ⟨hlive, hinj, hedge⟩

theorem rollback_not_ok (s : Sheet) (self : Nat) (jc : Bool) (ep : Position) (c : Option Nat) :
    (Cell.rollback s self jc ep c).status ≠ Status.ok := by
  unfold Cell.rollback
  split
  · split
    · simp only
      split
      · exact fun h => by cases h
      · assumption
    · exact fun h => by cases h
    · next e he =>
      unfold GetCell at he
      split at he
      · cases he; exact fun h => by cases h
      · cases he
  · split
    · exact fun h => by cases h
    · exact fun h => by cases h

theorem CellSet_ok_shape (E : Env) (n : Nat) (s : Sheet) (self : Nat) (t : String) (impl : Impl)
    (o : Outcome) (hm : Cell.makeImpl E t = some impl)
    (h : Cell.Set E (fun s' p t => SetCell E n s' p t) n s self t = some o)
    (hok : o.status = Status.ok) :
    ∃ s2, (linkAll self (impl.GetReferencedCells E) s false ⟨0, 0⟩).1.SameUpToCache s2 ∧
      o.st = s2.setCellAt self { s2.cell self with impl_ := some impl } := by
  unfold Cell.Set at h
  simp only [hm] at h
  rcases linkReferenced_eq E n self (impl.GetReferencedCells E) s false ⟨0, 0⟩
    (fun q hq => refs_valid E impl q hq) with hl | hl
  · rw [hl] at h; cases h
  · rw [hl] at h
    simp only [ne_eq, not_true_eq_false, if_false] at h
    split at h
    · cases h
    · cases h
      exact absurd hok (rollback_not_ok _ _ _ _ _)
    · split at h
      · split at h
        · cases h
        · next s2 hi =>
          cases h
          exact ⟨s2, InvalidateCache_same E n _ self s2 hi, rfl⟩
      · cases h
        exact ⟨_, Sheet.SameUpToCache.same_refl _, rfl⟩

theorem SetCell_ok_existing (E : Env) (fuel : Nat) (s : Sheet) (p : Position) (t : String)
    (s1 : Sheet) (id : Nat) (hf : s.find p = some id)
    (hset : SetCell E fuel s p t = some ⟨s1, Status.ok⟩) :
    p.IsValid = true ∧ ∃ n o1, fuel = n + 1 ∧
      Cell.Set E (fun s' p t => SetCell E n s' p t) n s id t = some o1 ∧
      o1.status = Status.ok ∧ s1 = o1.st.bookkeep p := by
  cases fuel with
  | zero => simp [SetCell] at hset
  | succ n =>
    simp only [SetCell, hf] at hset
    split at hset
    · simp only [Option.some.injEq, Outcome.mk.injEq] at hset
      exact absurd hset.2 (by decide)
    · next hv =>
      refine ⟨by simpa using hv, n, ?_⟩
      split at hset
      · cases hset
      · next o1 ho1 =>
        refine ⟨o1, rfl, ho1, ?_⟩
        split at hset
        · next hok =>
          simp only [Option.some.injEq, Outcome.mk.injEq, and_true] at hset
          exact ⟨hok, hset.symm⟩
        · next hne =>
          simp only [Option.some.injEq] at hset
          rw [hset] at hne
          exact absurd rfl hne

theorem links_transfer (s s2 : Sheet) (self : Nat) (l : List Position) (h : s.SameUpToCache s2)
    (hl : ∀ b ∈ l, ∃ ib, s.find b = some ib ∧ self ∈ (s.cell ib).references_) :
    ∀ b ∈ l, ∃ ib, s2.find b = some ib ∧ self ∈ (s2.cell ib).references_ := by
  intro b hb
  obtain ⟨ib, h1, h2⟩ := hl b hb
  refine ⟨ib, ?_, ?_⟩
  · simpa [Sheet.find, h.1] using h1
  · rw [(h.2.2.2.2.2 ib).1]; exact h2

theorem makeImpl_of_ok (E : Env) (n : Nat) (s : Sheet) (self : Nat) (t : String) (o : Outcome)
    (h : Cell.Set E (fun s' p t => SetCell E n s' p t) n s self t = some o)
    (hok : o.status = Status.ok) : ∃ impl, Cell.makeImpl E t = some impl := by
  cases hm : Cell.makeImpl E t with
  | some impl => exact ⟨impl, rfl⟩
  | none =>
    unfold Cell.Set at h
    simp only [hm, Option.some.injEq] at h
    subst h
    cases hok

theorem SetCell_linked (E : Env) (fuel : Nat) (s : Sheet) (p : Position) (t : String)
    (s1 : Sheet) (hs : s.Linked E) (hset : SetCell E fuel s p t = some ⟨s1, Status.ok⟩) :
    s1.Linked E := by
  cases hf : s.find p with
  | some id =>
    obtain ⟨_, n, o1, _, ho1, hok, hs1⟩ := SetCell_ok_existing E fuel s p t s1 id hf hset
    obtain ⟨impl, hm⟩ := makeImpl_of_ok E n s id t o1 ho1 hok
    obtain ⟨s2, hsame, hst⟩ := CellSet_ok_shape E n s id t impl o1 hm ho1 hok
    have hg := linkAll_grows id (impl.GetReferencedCells E) s false ⟨0, 0⟩ hs.1
    have hg2 := grows_trans hg.1 (grows_of_same hsame)
    have hl2 := linked_grows E s s2 hs hg2
    have hlinks := links_transfer _ s2 id _ hsame
      (fun b hb => linkAll_linked id (impl.GetReferencedCells E) s false ⟨0, 0⟩ hs.1 b hb)
    rw [hs1, hst]
    exact linked_bookkeep E _ p (linked_commit E s2 id impl hl2
      (Nat.lt_of_lt_of_le (hs.1 p id hf) hg2.1) hlinks)
  | none =>
    obtain ⟨_, n, o1, _, ho1, hok, hnone, hs1⟩ := SetCell_ok_shape E fuel s p t s1 hf hset
    obtain ⟨impl, hm⟩ := makeImpl_of_ok E n s.alloc s.heap.length t o1 ho1 hok
    obtain ⟨s2, hsame, hst⟩ := CellSet_ok_shape E n s.alloc s.heap.length t impl o1 hm ho1 hok
    have hla := linked_alloc E s hs
    have hg := linkAll_grows s.heap.length (impl.GetReferencedCells E) s.alloc false ⟨0, 0⟩ hla.1
    have hg2 := grows_trans hg.1 (grows_of_same hsame)
    have hl2 := linked_grows E s.alloc s2 hla hg2
    have hlinks := links_transfer _ s2 s.heap.length _ hsame
      (fun b hb => linkAll_linked s.heap.length (impl.GetReferencedCells E) s.alloc false ⟨0, 0⟩
        hla.1 b hb)
    have hself : s.heap.length < s2.heap.length := by
      have := hg2.1
      rw [alloc_length] at this
      omega
    have hns : ∀ q, s2.find q ≠ some s.heap.length := by
      intro q hq
      rcases hg2.2.2.1 q _ hq with h | ⟨_, h, _⟩
      · rw [alloc_find] at h
        have := hs.1 q _ h
        omega
      · rw [alloc_length] at h; omega
    rw [hs1, hst]
    exact linked_install E s2 s.heap.length impl p hl2 hself hns hlinks

theorem reachSet_linked (E : Env) (s : Sheet) (h : ReachSet E s) : s.Linked E := by
  induction h with
  | empty =>
    refine ⟨fun q i hq => ?_, fun a b i ha _ => ?_, fun a ia impl b ha _ _ => ?_⟩ <;>
      simp [Sheet.find, Sheet.empty] at *
  | step s p t fuel s' _ hset ih => exact SetCell_linked E fuel s p t s' ih hset

theorem SetCell_succ (E : Env) (fuel : Nat) (s : Sheet) (pos : Position) (text : String) :
    SetCell E (fuel + 1) s pos text =
      if !pos.IsValid then some ⟨s, Status.InvalidPositionException⟩
      else
        match s.find pos with
        | some id =>
          match Cell.Set E (fun s' p t => SetCell E fuel s' p t) fuel s id text with
          | none => none
          | some o => if o.status = Status.ok then some ⟨o.st.bookkeep pos, Status.ok⟩ else some o
        | none =>
          match Cell.Set E (fun s' p t => SetCell E fuel s' p t) fuel s.alloc s.heap.length
              text with
          | none => none
          | some o =>
            if o.status ≠ Status.ok then some ⟨o.st.release s.heap.length, o.status⟩
            else if (o.st.find pos).isSome then
              some ⟨(ClearCell o.st pos).st.release s.heap.length,
                if (ClearCell o.st pos).status = Status.ok then Status.CircularDependencyException
                else (ClearCell o.st pos).status⟩
            else some ⟨(o.st.install pos s.heap.length).bookkeep pos, Status.ok⟩ :=
  rfl

theorem text_of_same (o o' : Option Impl)
    (h : o'.map Impl.InvalidateCache = o.map Impl.InvalidateCache) :
    o'.map Impl.GetText = o.map Impl.GetText := by
  cases o with
  | none => cases o' with
    | none => rfl
    | some _ => cases h
  | some i => cases o' with
    | none => cases h
    | some i' =>
      simp only [Option.map_some', Option.some.injEq] at h ⊢
      rw [← invalidate_text i, ← h, invalidate_text]

theorem cell_keep_impl (s : Sheet) (i j : Nat) (refs refd : List Nat) :
    ((s.setCellAt i ⟨(s.cell i).impl_, refs, refd⟩).cell j).impl_ = (s.cell j).impl_ := by
  rw [cell_setCellAt]
  split
  · next hij => rw [hij.1]
  · rfl

theorem dep_path (E : Env) (s s' : Sheet) (hs : s.Linked E) (hg : s.Grows s') (a b : Position)
    (h : s.DependsOn E a b) :
    ∃ ia ib, s.find a = some ia ∧ s.find b = some ib ∧
      Relation.ReflTransGen (fun x y => y ∈ (s'.cell x).references_) ib ia := by
  have hstep : ∀ a b, s.RefersTo E a b → ∃ ia ib, s.find a = some ia ∧ s.find b = some ib ∧
      ia ∈ (s'.cell ib).references_ := by
    rintro a b ⟨l, hl, hb⟩
    unfold Sheet.GetReferencedCells at hl
    cases hfa : s.find a with
    | none => rw [hfa] at hl; cases hl
    | some ia =>
      rw [hfa] at hl
      simp only [Option.some_bind, Cell.GetReferencedCells] at hl
      cases himpl : (s.cell ia).impl_ with
      | none => rw [himpl] at hl; cases hl
      | some impl =>
        rw [himpl] at hl
        simp only [Option.map_some', Option.some.injEq] at hl
        subst hl
        obtain ⟨ib, h1, h2⟩ := hs.2.2 a ia impl b hfa himpl hb
        exact ⟨ia, ib, rfl, h1, (hg.2.2.2 ib (hs.1 b ib h1)).1 ia h2⟩
  induction h with
  | single h1 =>
    obtain ⟨ia, ib, h2, h3, h4⟩ := hstep _ _ h1
    exact ⟨ia, ib, h2, h3, Relation.ReflTransGen.single h4⟩
  | tail _ h2 ih =>
    obtain ⟨ia, ib, h3, h4, h5⟩ := ih
    obtain ⟨ib', ic, h6, h7, h8⟩ := hstep _ _ h2
    have : ib' = ib := by rw [h4] at h6; exact (Option.some.inj h6).symm
    subst this
    exact ⟨ia, ic, h3, h7, Relation.ReflTransGen.head h8 h5⟩

theorem getText_eq (s s' : Sheet) (p : Position) (i : Nat) (h1 : s.find p = some i)
    (h2 : s'.find p = some i)
    (h3 : (s'.cell i).impl_.map Impl.InvalidateCache = (s.cell i).impl_.map Impl.InvalidateCache) :
    s'.GetText p = s.GetText p := by
  simp only [Sheet.GetText, h1, h2, Option.some_bind, Cell.GetText]
  exact text_of_same _ _ h3

theorem rollback_existing (s L : Sheet) (ip x : Nat) (jc : Bool) (ep p : Position)
    (hg : s.Grows L) (hfp : s.find p = some ip) (hip : ip < s.heap.length)
    (hcr : jc = false ∨ (L.rows_ ≠ [] ∧ L.cols_ ≠ [] ∧ ep.IsValid = true ∧ s.find ep = none ∧
      ∃ e, L.find ep = some e ∧ s.heap.length ≤ e)) :
    (Cell.rollback L ip jc ep (some x)).status = Status.CircularDependencyException ∧
    (Cell.rollback L ip jc ep (some x)).st.GetText p = s.GetText p := by
  have hLp : L.find p = some ip := hg.2.1 p ip hfp
  have himp := (hg.2.2.2 ip hip).2
  cases jc with
  | false =>
    refine ⟨rfl, getText_eq s _ p ip hfp hLp ?_⟩
    show (((L.setCellAt ip _).setCellAt x _).cell ip).impl_.map Impl.InvalidateCache = _
    rw [cell_keep_impl, cell_keep_impl]
    exact himp
  | true =>
    rcases hcr with h | ⟨hr, hc, hv, hse, e, hfe, hle⟩
    · cases h
    · have hne : p ≠ ep := fun h => by rw [h, hse] at hfp; cases hfp
      have hcl := ClearCell_stored
        ((L.setCellAt ip ⟨(L.cell ip).impl_, (L.cell ip).references_,
            setErase (L.cell ip).referenced_ e⟩).setCellAt e
          ((L.setCellAt ip ⟨(L.cell ip).impl_, (L.cell ip).references_,
            setErase (L.cell ip).referenced_ e⟩).cell e).Clear) ep e hv hfe hr hc
      have hroll : Cell.rollback L ip true ep (some x)
          = ⟨(ClearCell ((L.setCellAt ip ⟨(L.cell ip).impl_, (L.cell ip).references_,
              setErase (L.cell ip).referenced_ e⟩).setCellAt e
            ((L.setCellAt ip ⟨(L.cell ip).impl_, (L.cell ip).references_,
              setErase (L.cell ip).referenced_ e⟩).cell e).Clear) ep).st,
            Status.CircularDependencyException⟩ := by
        simp only [Cell.rollback, if_true, GetCell, hv, Bool.not_true, Bool.false_eq_true,
          if_false, hfe, DeleteCell]
        simp only [hcl.1, if_true]
      rw [hroll]
      refine ⟨rfl, getText_eq s _ p ip hfp ?_ ?_⟩
      · show (ClearCell _ ep).st.find p = some ip
        rw [hcl.2.2.2.1 p hne]; exact hLp
      · show ((ClearCell _ ep).st.cell ip).impl_.map Impl.InvalidateCache = _
        rw [cell_congr hcl.2.2.1, cell_setCellAt_other _ _ _ _ (by omega), cell_keep_impl]
        exact himp

theorem cycle_rejected_existing (E : Env) (s : Sheet) (hs : s.Linked E) (p : Position)
    (hp : p.IsValid = true) (t : String) (impl : Impl) (hm : Cell.makeImpl E t = some impl)
    (q : Position) (hq : q ∈ impl.GetReferencedCells E) (hdep : q = p ∨ s.DependsOn E q p)
    (ip : Nat) (hf : s.find p = some ip) (m : Nat)
    (hm3 : (linkAll ip (impl.GetReferencedCells E) s false ⟨0, 0⟩).1.allDependents.length
      ≤ m + 1) :
    ∃ o, SetCell E (m + 4) s p t = some o ∧ o.status = Status.CircularDependencyException ∧
      o.st.GetText p = s.GetText p := by
  have hvalid : ∀ b ∈ impl.GetReferencedCells E, b.IsValid = true := fun b hb =>
    refs_valid E impl b hb
  have hg := (linkAll_grows ip (impl.GetReferencedCells E) s false ⟨0, 0⟩ hs.1).1
  have hip := hs.1 p ip hf
  obtain ⟨iq, hfq, hmem⟩ := linkAll_linked ip (impl.GetReferencedCells E) s false ⟨0, 0⟩ hs.1 q hq
  have hcyc : (linkAll ip (impl.GetReferencedCells E) s false ⟨0, 0⟩).1.CycleThrough ip := by
    rcases hdep with h | h
    · subst h
      rw [hg.2.1 q ip hf] at hfq
      simp only [Option.some.injEq] at hfq
      subst hfq
      exact ⟨ip, Relation.ReflTransGen.refl, hmem⟩
    · obtain ⟨iq', ip', h1, h2, h3⟩ := dep_path E s _ hs hg q p h
      rw [hf] at h2
      simp only [Option.some.injEq] at h2
      subst h2
      rw [hg.2.1 q iq' h1] at hfq
      simp only [Option.some.injEq] at hfq
      subst hfq
      exact ⟨iq', h3, hmem⟩
  obtain ⟨x, hx⟩ := circular_detects E _ ip (m + 3) hcyc (by omega)
  have hcr := linkAll_created ip (impl.GetReferencedCells E) s false ⟨0, 0⟩ hs.1 hvalid
  have hroll := rollback_existing s (linkAll ip (impl.GetReferencedCells E) s false ⟨0, 0⟩).1 ip x
    (linkAll ip (impl.GetReferencedCells E) s false ⟨0, 0⟩).2.1
    (linkAll ip (impl.GetReferencedCells E) s false ⟨0, 0⟩).2.2 p hg hf hip
    (by
      rcases hcr with h | h
      · exact Or.inl h.1
      · exact Or.inr ⟨h.2.1, h.2.2.1, h.2.2.2.1, h.2.2.2.2.1, h.2.2.2.2.2⟩)
  refine ⟨_, ?_, hroll.1, hroll.2⟩
  have hset : Cell.Set E (fun s' p t => SetCell E (m + 3) s' p t) (m + 3) s ip t
      = some (Cell.rollback (linkAll ip (impl.GetReferencedCells E) s false ⟨0, 0⟩).1 ip
          (linkAll ip (impl.GetReferencedCells E) s false ⟨0, 0⟩).2.1
          (linkAll ip (impl.GetReferencedCells E) s false ⟨0, 0⟩).2.2 (some x)) := by
    unfold Cell.Set
    simp only [hm, linkReferenced_fuel E m ip _ s false ⟨0, 0⟩ hvalid, ne_eq, not_true_eq_false,
      if_false, hx]
  rw [SetCell_succ]
  simp only [hp, Bool.not_true, Bool.false_eq_true, if_false, hf, hset, hroll.1]
  simp

theorem cycle_rejected_fresh (E : Env) (s : Sheet) (hs : s.Linked E) (p : Position)
    (hp : p.IsValid = true) (t : String) (impl : Impl) (hm : Cell.makeImpl E t = some impl)
    (hq : p ∈ impl.GetReferencedCells E) (hf : s.find p = none) (m : Nat) :
    ∃ o, SetCell E (m + 4) s p t = some o ∧ o.status = Status.CircularDependencyException ∧
      o.st.GetText p = s.GetText p := by
  have hvalid : ∀ b ∈ impl.GetReferencedCells E, b.IsValid = true := fun b hb =>
    refs_valid E impl b hb
  have hla := linked_alloc E s hs
  have hself : s.heap.length < s.alloc.heap.length := by rw [alloc_length]; omega
  have hg := (linkAll_grows s.heap.length (impl.GetReferencedCells E) s.alloc false ⟨0, 0⟩
    hla.1).1
  have hns : ∀ q, s.alloc.find q ≠ some s.heap.length := by
    intro q hq'
    rw [alloc_find] at hq'
    have := hs.1 q _ hq'
    omega
  have href : ((linkAll s.heap.length (impl.GetReferencedCells E) s.alloc false ⟨0, 0⟩).1.cell
      s.heap.length).references_ = [] := by
    rw [linkAll_untouched s.heap.length _ s.alloc false ⟨0, 0⟩ hself hns, alloc_cell_new]
    rfl
  have himpl : ((linkAll s.heap.length (impl.GetReferencedCells E) s.alloc false ⟨0, 0⟩).1.cell
      s.heap.length).impl_ = none := by
    have := (hg.2.2.2 s.heap.length hself).2
    rw [alloc_cell_new] at this
    simpa [Cell.fresh] using this
  have hcirc := circular_of_no_dependents E _ s.heap.length (m + 1) href
  obtain ⟨ib, hfb, _⟩ := linkAll_linked s.heap.length (impl.GetReferencedCells E) s.alloc false
    ⟨0, 0⟩ hla.1 p hq
  have hset : Cell.Set E (fun s' p t => SetCell E (m + 3) s' p t) (m + 3) s.alloc s.heap.length t
      = some ⟨(linkAll s.heap.length (impl.GetReferencedCells E) s.alloc false ⟨0, 0⟩).1.setCellAt
          s.heap.length
          { (linkAll s.heap.length (impl.GetReferencedCells E) s.alloc false ⟨0, 0⟩).1.cell
              s.heap.length with impl_ := some impl }, Status.ok⟩ := by
    unfold Cell.Set
    simp only [hm, linkReferenced_fuel E m s.heap.length _ s.alloc false ⟨0, 0⟩ hvalid, ne_eq,
      not_true_eq_false, if_false, hcirc, Cell.InvalidateCache, himpl, if_true]
    split <;> rfl
  have hrows : (linkAll s.heap.length (impl.GetReferencedCells E) s.alloc false ⟨0, 0⟩).1.rows_ ≠ []
      ∧ (linkAll s.heap.length (impl.GetReferencedCells E) s.alloc false ⟨0, 0⟩).1.cols_ ≠ [] := by
    rcases linkAll_created s.heap.length (impl.GetReferencedCells E) s.alloc false ⟨0, 0⟩ hla.1
      hvalid with h | h
    · have h1 : (linkAll s.heap.length (impl.GetReferencedCells E) s.alloc false ⟨0, 0⟩).1.find p
          = s.alloc.find p := by simp [Sheet.find, h.2.2.1]
      rw [h1, alloc_find, hf] at hfb
      cases hfb
    · exact ⟨h.2.1, h.2.2.1⟩
  have hcl := ClearCell_stored
    ((linkAll s.heap.length (impl.GetReferencedCells E) s.alloc false ⟨0, 0⟩).1.setCellAt
      s.heap.length
      { (linkAll s.heap.length (impl.GetReferencedCells E) s.alloc false ⟨0, 0⟩).1.cell
          s.heap.length with impl_ := some impl }) p ib hp hfb hrows.1 hrows.2
  have hres : SetCell E (m + 4) s p t
      = some ⟨(ClearCell
          ((linkAll s.heap.length (impl.GetReferencedCells E) s.alloc false ⟨0, 0⟩).1.setCellAt
            s.heap.length
            { (linkAll s.heap.length (impl.GetReferencedCells E) s.alloc false ⟨0, 0⟩).1.cell
                s.heap.length with impl_ := some impl }) p).st.release s.heap.length,
          Status.CircularDependencyException⟩ := by
    rw [SetCell_succ]
    simp only [hp, Bool.not_true, Bool.false_eq_true, if_false, hf, hset, ne_eq,
      not_true_eq_false, setCellAt_find, hfb, Option.isSome_some, if_true, hcl.1]
  refine ⟨_, hres, rfl, ?_⟩
  simp only [Sheet.GetText, release_find, hcl.2.1, hf, Option.none_bind]

theorem dep_valid (E : Env) (s : Sheet) (a b : Position) (h : s.DependsOn E a b) :
    b.IsValid = true := by
  have hstep : ∀ a b, s.RefersTo E a b → b.IsValid = true := by
    rintro a b ⟨l, hl, hb⟩
    unfold Sheet.GetReferencedCells at hl
    cases hfa : s.find a with
    | none => rw [hfa] at hl; cases hl
    | some ia =>
      rw [hfa] at hl
      simp only [Option.some_bind, Cell.GetReferencedCells] at hl
      cases himpl : (s.cell ia).impl_ with
      | none => rw [himpl] at hl; cases hl
      | some impl =>
        rw [himpl] at hl
        simp only [Option.map_some', Option.some.injEq] at hl
        subst hl
        exact refs_valid E impl b hb
  cases h with
  | single h1 => exact hstep _ _ h1
  | tail _ h2 => exact hstep _ _ h2

/-- C4: in every sheet built from the empty sheet by `SetCell` calls that returned normally,
for a position `p` and a text `t` whose content (the `Impl` that `Cell::Set` builds from `t`)
refers to `p` itself or to a position whose cell depends on `p`, directly or through other
cells, `SetCell(p, t)` returns, with any fuel from some bound on, by raising
`CircularDependencyException`, and `GetText(p)` is afterwards what it was before (no text when
no cell was stored at `p`). -/
theorem C4_cycle_rejected (E : Env) (s : Sheet) (hs : ReachSet E s) (p : Position)
    (t : String) (impl : Impl) (hm : Cell.makeImpl E t = some impl)
    (q : Position) (hq : q ∈ impl.GetReferencedCells E) (hdep : q = p ∨ s.DependsOn E q p) :
    ∃ fuel0, ∀ fuel, fuel0 ≤ fuel →
      ∃ o, SetCell E fuel s p t = some o ∧ o.status = Status.CircularDependencyException ∧
        o.st.GetText p = s.GetText p := by
  have hl := reachSet_linked E s hs
  have hp : p.IsValid = true := by
    rcases hdep with h | h
    · exact h ▸ refs_valid E impl q hq
    · exact dep_valid E s q p h
  cases hf : s.find p with
  | none =>
    have hqp : q = p := by
      rcases hdep with h | h
      · exact h
      · obtain ⟨_, ib, _, h2, _⟩ := dep_path E s s hl (grows_refl s) q p h
        rw [hf] at h2
        cases h2
    subst hqp
    refine ⟨4, fun fuel hfuel => ?_⟩
    obtain ⟨m, rfl⟩ : ∃ m, fuel = m + 4 := ⟨fuel - 4, by omega⟩
    exact cycle_rejected_fresh E s hl q hp t impl hm hq hf m
  | some ip =>
    refine ⟨(linkAll ip (impl.GetReferencedCells E) s false ⟨0, 0⟩).1.allDependents.length + 4,
      fun fuel hfuel => ?_⟩
    obtain ⟨m, rfl⟩ : ∃ m, fuel = m + 4 := ⟨fuel - 4, by omega⟩
    exact cycle_rejected_existing E s hl p hp t impl hm q hq hdep ip hf m (by omega)

theorem scenario1_reached : ReachSet Demo.env (sheetAfter Demo.env 5 scenario1) :=
  ReachSet.step (sheetAfter Demo.env 5 [Op.set A1 "2", Op.set A2 "3"]) A3 "=A1+A2" 5 _
    (ReachSet.step (sheetAfter Demo.env 5 [Op.set A1 "2"]) A2 "3" 5 _
      (ReachSet.step Sheet.empty A1 "2" 5 _ ReachSet.empty rfl) rfl) rfl

/-- C4 at a concrete input (scenario 3 of the specification): after `A1 = 2`, `A2 = 3`,
`A3 = A1 + A2`, the call `SetCell(A1, "=A3")` raises `CircularDependencyException` and
`GetText(A1)` stays what it was. -/
theorem C4_cycle_rejected_witness :
    ∃ fuel0, ∀ fuel, fuel0 ≤ fuel →
      ∃ o, SetCell Demo.env fuel (sheetAfter Demo.env 5 scenario1) A1 "=A3" = some o ∧
        o.status = Status.CircularDependencyException ∧
        o.st.GetText A1 = (sheetAfter Demo.env 5 scenario1).GetText A1 :=
  C4_cycle_rejected Demo.env (sheetAfter Demo.env 5 scenario1) scenario1_reached A1
    "=A3" (Impl.formula "A3" "=A3" none) rfl A3 (List.mem_singleton.mpr rfl)
    (Or.inr (Relation.TransGen.single ⟨[A1, A2], rfl, List.mem_cons_self _ _⟩))

/-! ## Worked scenarios -/

/-- C1 (the code breaks the claim): two calls raise `CircularDependencyException` and leave the
sheet changed. On the empty sheet, where nothing is stored and the printable size is `(0, 0)`,
`SetCell(A1, "=A1+B1")` raises, yet afterwards a placeholder is stored at `B1` and the
printable size is `(1, 1)`. After scenario 1, where the cell of `A1` has no dependencies and
the cell of `A2` has the cell of `A3` as only dependent, `SetCell(A1, "=A2+A3")` raises, yet
afterwards the cell of `A1` lists the cell of `A2` as a dependency and the cell of `A2` lists
the cell of `A1` as a dependent. -/
theorem C1_raise_leaves_sheet_changed :
    (Sheet.empty.find B1, GetPrintableSize Sheet.empty) = (none, ⟨0, 0⟩) ∧
    (SetCell Demo.env 5 Sheet.empty A1 "=A1+B1").map
        (fun o => (o.status, o.st.find B1, GetPrintableSize o.st))
      = some (Status.CircularDependencyException, some 2, ⟨1, 1⟩) ∧
    (runOps Demo.env 5 Sheet.empty scenario1).map
        (fun r => (r.2, r.1.find A1, r.1.find A2, r.1.find A3,
          (r.1.cell 0).referenced_, (r.1.cell 1).references_))
      = some ([Status.ok, Status.ok, Status.ok], some 0, some 1, some 2, [], [2]) ∧
    (runOps Demo.env 5 Sheet.empty scenario1).bind
        (fun r => (SetCell Demo.env 5 r.1 A1 "=A2+A3").map
          (fun o => (o.status, o.st.find A1, o.st.find A2,
            (o.st.cell 0).referenced_, (o.st.cell 1).references_)))
      = some (Status.CircularDependencyException, some 0, some 1, [1], [2, 0]) :=
  ⟨rfl, rfl, rfl, rfl⟩

/-- C2 (the code breaks the claim): `SetCell(A1, "=B1")`, `ClearCell(B1)`, `SetCell(B1, "=A1")`
all return normally from the empty sheet, and afterwards `A1` refers to `B1` and `B1` refers to
`A1`: the graph of `GetReferencedCells` has a cycle. -/
theorem C2_clear_then_set_closes_a_cycle :
    (runOps Demo.env 5 Sheet.empty [Op.set A1 "=B1", Op.clear B1, Op.set B1 "=A1"]).map
        (fun r => (r.2, r.1.GetReferencedCells Demo.env A1, r.1.GetReferencedCells Demo.env B1))
      = some ([Status.ok, Status.ok, Status.ok], some [B1], some [A1]) :=
  rfl

/-- C3 (the code breaks the claim): after scenario 1, `GetValue(A3)` is 5 and is memoized;
`SetCell(A1, "10")` then returns normally and `GetText(A1)` is `10`, but `GetValue(A3)` still
answers the memoized 5. On the sheet built by the same four `SetCell` calls without the read
in between, `GetValue(A3)` is 13. -/
theorem C3_stale_value_after_set :
    (runOps Demo.env 5 Sheet.empty scenario1).bind
        (fun r => (r.1.GetValue Demo.env 5 A3).bind
          (fun v1 => (SetCell Demo.env 5 v1.2 A1 "10").bind
            (fun o => (o.st.GetValue Demo.env 5 A3).map
              (fun v2 => (r.2, v1.1, o.status, o.st.GetText A1, v2.1)))))
      = some ([Status.ok, Status.ok, Status.ok], some (Value.num 5), Status.ok, some "10",
          some (Value.num 5)) ∧
    (runOps Demo.env 5 Sheet.empty (scenario1 ++ [Op.set A1 "10"])).bind
        (fun r => (r.1.GetValue Demo.env 5 A3).map (fun v => (r.2, v.1)))
      = some ([Status.ok, Status.ok, Status.ok, Status.ok], some (Value.num 13)) :=
  ⟨rfl, rfl⟩

/-- C5 (the code breaks the claim): `SetCell(B1, "x")`, `SetCell(A2, "y")`, `ClearCell(A2)`
all return normally from the empty sheet; afterwards the only stored cell is at `B1`
(row 0, column 1), the rectangle around the stored cells is `(1, 2)`, and
`GetPrintableSize()` is `(1, 1)`. -/
theorem C5_printable_size_after_clear :
    (runOps Demo.env 5 Sheet.empty [Op.set B1 "x", Op.set A2 "y", Op.clear A2]).map
        (fun r => (r.2, r.1.sheet_, r.1.occupiedBox, GetPrintableSize r.1))
      = some ([Status.ok, Status.ok, Status.ok], [(B1, 0)], ⟨1, 2⟩, ⟨1, 1⟩) :=
  rfl

/-! ## Scenarios on adjacency, printing and the traversals -/

/-- C11 (the code breaks the claim): after `SetCell(A1, "=B1")` on the empty sheet the cell of
`A1` (cell 0) has no dependents and `IsReferenced()` answers true for it, and the cell of `B1`
(cell 1) has the cell of `A1` as dependent and `IsReferenced()` answers false for it. -/
theorem C11_is_referenced_tests_dependencies :
    (runOps Demo.env 5 Sheet.empty [Op.set A1 "=B1"]).map
        (fun r => (r.2, r.1.find A1, r.1.find B1,
          (r.1.cell 0).references_, (r.1.cell 0).IsReferenced,
          (r.1.cell 1).references_, (r.1.cell 1).IsReferenced))
      = some ([Status.ok], some 0, some 1, [], true, [0], false) :=
  rfl

/-- C13 (the code breaks the claim): after `SetCell(B1, "x")`, `SetCell(A2, "y")`,
`ClearCell(A2)`, which all return normally from the empty sheet, `GetPrintableSize()` is
`(1, 1)` while `PrintTexts` and `PrintValues` write one line of two fields, an empty one and
`x`. -/
theorem C13_print_wider_than_printable_size :
    (runOps Demo.env 5 Sheet.empty [Op.set B1 "x", Op.set A2 "y", Op.clear A2]).map
        (fun r => (r.2, GetPrintableSize r.1, r.1.PrintTexts,
          (r.1.PrintValues Demo.env Demo.showNum 5).map Prod.fst))
      = some ([Status.ok, Status.ok, Status.ok], ⟨1, 1⟩, "\tx\n", some "\tx\n") :=
  rfl

/-- C14 (the code breaks the claim): `operator<<` writes `#ARITHM!` for a reference error and
for a value error too. With `A1 = abc` and `A2 = "=A1"` the value of `A2` is the value error,
and `PrintValues` writes `#ARITHM!` for it. -/
theorem C14_every_error_prints_arithm :
    FormulaError.Ref.print = "#ARITHM!" ∧ FormulaError.Value.print = "#ARITHM!" ∧
    FormulaError.Arithmetic.print = "#ARITHM!" ∧
    (runOps Demo.env 5 Sheet.empty [Op.set A1 "abc", Op.set A2 "=A1"]).bind
        (fun r => (r.1.GetValue Demo.env 5 A2).bind
          (fun v => (r.1.PrintValues Demo.env Demo.showNum 5).map
            (fun out => (r.2, v.1, out.1))))
      = some ([Status.ok, Status.ok], some (Value.err FormulaError.Value), "abc\n#ARITHM!\n") :=
  ⟨rfl, rfl, rfl, rfl⟩

/-- C18 (the code breaks the claim): with `B1 = "=A1"` and `C1 = "=A1+B1"`, the call
`SetCell(A1, "5")`, whose text refers to no cell, raises `CircularDependencyException`, in
whichever of the two orders the dependents of `A1` are walked, and `GetText(A1)` stays
empty. -/
theorem C18_false_cycle_on_diamond :
    (plainImpl "5").GetReferencedCells Demo.env = [] ∧
    (runOps Demo.env 9 Sheet.empty [Op.set B1 "=A1", Op.set C1 "=A1+B1", Op.set A1 "5"]).map
        (fun r => (r.2, r.1.GetText A1))
      = some ([Status.ok, Status.ok, Status.CircularDependencyException], some "") ∧
    (runOps Demo.envRev 9 Sheet.empty [Op.set B1 "=A1", Op.set C1 "=A1+B1", Op.set A1 "5"]).map
        (fun r => (r.2, r.1.GetText A1))
      = some ([Status.ok, Status.ok, Status.CircularDependencyException], some "") :=
  ⟨rfl, rfl, rfl⟩

/-- C19 (the code breaks the claim): after `SetCell(A1, "=B1")` and `SetCell(A1, "5")`, which
return normally, the text of `A1` is `5` and it refers to no cell, yet its cell (cell 0) still
has the cell of `B1` (cell 1) in `referenced_` and the cell of `B1` still has the cell of `A1`
in `references_`. A following `SetCell(B1, "=A1")` is then refused with
`CircularDependencyException`. -/
theorem C19_old_edges_stay :
    (runOps Demo.env 5 Sheet.empty [Op.set A1 "=B1", Op.set A1 "5"]).map
        (fun r => (r.2, r.1.find A1, r.1.find B1, r.1.GetText A1,
          r.1.GetReferencedCells Demo.env A1, (r.1.cell 0).referenced_, (r.1.cell 1).references_))
      = some ([Status.ok, Status.ok], some 0, some 1, some "5", some [], [1], [0]) ∧
    (runOps Demo.env 5 Sheet.empty [Op.set A1 "=B1", Op.set A1 "5", Op.set B1 "=A1"]).map
        Prod.snd
      = some [Status.ok, Status.ok, Status.CircularDependencyException] :=
  ⟨rfl, rfl⟩

/-! ## The cache-invalidation loop -/

theorem invalidateBody_length (E : Env) (l : List Nat) (s : Sheet) (dq : List Nat) :
    dq.length ≤ (invalidateBody E l s dq).2.length ∧
    (∀ c ∈ l, (s.cell c).referenced_ ≠ [] →
      dq.length + 1 ≤ (invalidateBody E l s dq).2.length) := by
  induction l generalizing s dq with
  | nil => exact ⟨Nat.le_refl _, fun c hc => absurd hc (List.not_mem_nil c)⟩
  | cons a rest ih =>
    simp only [invalidateBody]
    have hstep : dq.length ≤ (if (s.cell a).referenced_.length ≠ 0 then
        (E.order (s.cell a).referenced_).reverse ++ dq else dq).length := by
      split
      · simp
      · exact Nat.le_refl _
    obtain ⟨ih1, ih2⟩ := ih (s.dropCache a) (if (s.cell a).referenced_.length ≠ 0 then
        (E.order (s.cell a).referenced_).reverse ++ dq else dq)
    refine ⟨Nat.le_trans hstep ih1, fun c hc hne => ?_⟩
    rcases List.mem_cons.mp hc with h | h
    · subst h
      have hlen : (s.cell c).referenced_.length ≠ 0 := fun h0 => hne (List.length_eq_zero.mp h0)
      have hgrow : dq.length + 1 ≤ (if (s.cell c).referenced_.length ≠ 0 then
          (E.order (s.cell c).referenced_).reverse ++ dq else dq).length := by
        simp only [hlen, ne_eq, not_false_eq_true, if_true, List.length_append,
          List.length_reverse, (E.order_perm _).length_eq]
        omega
      exact Nat.le_trans hgrow ih1
    · have hsame : ((s.dropCache a).cell c).referenced_ ≠ [] := by
        rw [((dropCache_same s a).2.2.2.2.2 c).2.1]; exact hne
      exact Nat.le_trans (Nat.succ_le_succ hstep) (ih2 c h hsame)

theorem invalidateLoop_diverges (E : Env) (self : Nat) (s0 : Sheet) (c : Nat)
    (hc : c ∈ (s0.cell self).referenced_) (hne : (s0.cell c).referenced_ ≠ [])
    (fuel : Nat) (s : Sheet) (dq : List Nat) (hs : s0.SameUpToCache s) (hdq : dq ≠ []) :
    invalidateLoop E self fuel s dq = none := by
  induction fuel generalizing s dq with
  | zero => rfl
  | succ n ih =>
    have hlen : dq.length ≠ 0 := fun h => hdq (List.length_eq_zero.mp h)
    simp only [invalidateLoop, hlen, ne_eq, not_false_eq_true, if_true]
    have hc' : c ∈ E.order (s.cell self).referenced_ := by
      rw [mem_order, (hs.2.2.2.2.2 self).2.1]; exact hc
    have hne' : (s.cell c).referenced_ ≠ [] := by
      rw [(hs.2.2.2.2.2 c).2.1]; exact hne
    have hgrow := (invalidateBody_length E (E.order (s.cell self).referenced_) s dq).2 c hc' hne'
    refine ih _ _ (Sheet.SameUpToCache.same_trans hs (invalidateBody_same E _ s dq)) ?_
    intro hnil
    have h1 := congrArg List.length hnil
    simp only [List.length_dropLast, List.length_nil] at h1
    have h2 : 0 < dq.length := Nat.pos_of_ne_zero hlen
    omega

theorem SetCell_diverges (E : Env) (s : Sheet) (p : Position) (ip : Nat) (t : String)
    (hp : p.IsValid = true)
    (hf : s.find p = some ip) (ht : t.data.head? ≠ some '=' ∨ t = "=")
    (hnull : (s.cell ip).impl_ ≠ none) (hrefs : (s.cell ip).references_ = []) (c : Nat)
    (hc : c ∈ (s.cell ip).referenced_) (hne : (s.cell c).referenced_ ≠ []) (fuel : Nat) :
    SetCell E fuel s p t = none := by
  cases fuel with
  | zero => rfl
  | succ n =>
    rw [SetCell_succ]
    have hset : Cell.Set E (fun s' p t => SetCell E n s' p t) n s ip t = none := by
      unfold Cell.Set
      simp only [makeImpl_plain E t ht, plainImpl_refs, linkReferenced, ne_eq,
        not_true_eq_false, if_false]
      match n with
      | 0 => rfl
      | 1 =>
        simp [Cell.IsCircularDependency, circularLoop, hrefs, order_nil, visitDependents]
      | n + 2 =>
        have hl : (s.cell ip).referenced_.length ≠ 0 := fun h0 => by
          rw [List.length_eq_zero.mp h0] at hc
          exact absurd hc (List.not_mem_nil c)
        have hinv : Cell.InvalidateCache E (n + 2) s ip = none := by
          unfold Cell.InvalidateCache
          simp only [hnull, if_false]
          exact invalidateLoop_diverges E ip (s.dropCache ip) c
            (by rw [((dropCache_same s ip).2.2.2.2.2 ip).2.1]; exact hc)
            (by rw [((dropCache_same s ip).2.2.2.2.2 c).2.1]; exact hne)
            (n + 2) _ [ip] (Sheet.SameUpToCache.same_refl _) (by simp)
        simp only [circular_of_no_dependents E s ip n hrefs, Cell.IsReferenced, hl, if_false,
          if_true, hinv]
    simp only [hp, Bool.not_true, Bool.false_eq_true, if_false, hf, hset]

/-- C17 (the code breaks the claim): `SetCell(A1, "=B1")` and `SetCell(B1, "=C1")` return
normally from the empty sheet; on the sheet they leave, `SetCell(A1, "x")` returns with
no amount of fuel: the loop of `Cell::InvalidateCache` pushes the dependency of `B1` on the
deque at every turn and pops one entry, so the deque never empties. -/
theorem C17_set_never_returns :
    (runOps Demo.env 5 Sheet.empty [Op.set A1 "=B1", Op.set B1 "=C1"]).map Prod.snd
      = some [Status.ok, Status.ok] ∧
    ∀ fuel, SetCell Demo.env fuel (sheetAfter Demo.env 5 [Op.set A1 "=B1", Op.set B1 "=C1"])
      A1 "x" = none :=
  ⟨rfl, fun fuel =>
    SetCell_diverges Demo.env (sheetAfter Demo.env 5 [Op.set A1 "=B1", Op.set B1 "=C1"])
      A1 0 "x" (by decide) rfl (Or.inl (by decide)) (by decide) rfl 1 (by decide) (by decide)
      fuel⟩

/-! ## The list of referenced cells is sorted and free of repetition -/

theorem lt_iff (a b : Position) :
    Position.lt a b = true ↔ a.row < b.row ∨ (a.row = b.row ∧ a.col < b.col) := by
  simp [Position.lt]

theorem lt_false_iff (a b : Position) :
    Position.lt a b = false ↔ ¬ (a.row < b.row ∨ (a.row = b.row ∧ a.col < b.col)) := by
  rw [← lt_iff]; simp

theorem lt_irrefl (a : Position) : Position.lt a a = false := by
  rw [lt_false_iff]; omega

theorem lt_asymm (a b : Position) (h : Position.lt a b = true) : Position.lt b a = false := by
  rw [lt_iff] at h; rw [lt_false_iff]; omega

theorem le_trans_pos (a b c : Position) (h1 : Position.lt b a = false)
    (h2 : Position.lt c b = false) : Position.lt c a = false := by
  rw [lt_false_iff] at *; omega

theorem lt_of_le_ne (a b : Position) (h1 : Position.lt b a = false) (h2 : a ≠ b) :
    Position.lt a b = true := by
  rw [lt_false_iff] at h1; rw [lt_iff]
  have h3 : ¬ (a.row = b.row ∧ a.col = b.col) := by
    intro h; apply h2
    cases a; cases b; simp only [Position.mk.injEq]; exact h
  omega

theorem lt_of_lt_le (a b c : Position) (h1 : Position.lt a b = true)
    (h2 : Position.lt c b = false) : Position.lt a c = true := by
  rw [lt_false_iff] at h2; rw [lt_iff] at *; omega

theorem insertSorted_sorted (p : Position) (l : List Position)
    (h : l.Pairwise (fun a b => Position.lt b a = false)) :
    (insertSorted p l).Pairwise (fun a b => Position.lt b a = false) := by
  induction l with
  | nil => simp [insertSorted]
  | cons q qs ih =>
    rw [List.pairwise_cons] at h
    simp only [insertSorted]
    split
    · rename_i hlt
      rw [List.pairwise_cons]
      refine ⟨fun x hx => ?_, ih h.2⟩
      rcases (mem_insertSorted x p qs).mp hx with hx | hx
      · subst hx; exact lt_asymm _ _ hlt
      · exact h.1 x hx
    · rename_i hlt
      have hlt' : Position.lt q p = false := by simpa using hlt
      rw [List.pairwise_cons]
      refine ⟨fun x hx => ?_, List.pairwise_cons.mpr h⟩
      rcases List.mem_cons.mp hx with hx | hx
      · subst hx; exact hlt'
      · exact le_trans_pos p q x hlt' (h.1 x hx)

theorem sortPositions_sorted (l : List Position) :
    (sortPositions l).Pairwise (fun a b => Position.lt b a = false) := by
  induction l with
  | nil => simp [sortPositions]
  | cons a rest ih => exact insertSorted_sorted a _ ih

theorem uniquePositions_mem (x : Position) (l : List Position) (h : x ∈ l) :
    x ∈ uniquePositions l := by
  induction l with
  | nil => exact absurd h (List.not_mem_nil x)
  | cons a rest ih =>
    cases rest with
    | nil => simpa [uniquePositions] using h
    | cons b rest' =>
      simp only [uniquePositions]
      split
      · rename_i hab
        rcases List.mem_cons.mp h with h | h
        · exact ih (by rw [h, hab]; exact List.mem_cons_self _ _)
        · exact ih h
      · rcases List.mem_cons.mp h with h | h
        · exact h ▸ List.mem_cons_self _ _
        · exact List.mem_cons_of_mem _ (ih h)

theorem uniquePositions_strict (l : List Position)
    (h : l.Pairwise (fun a b => Position.lt b a = false)) :
    (uniquePositions l).Pairwise (fun a b => Position.lt a b = true) := by
  induction l with
  | nil => simp [uniquePositions]
  | cons a rest ih =>
    cases rest with
    | nil => simp [uniquePositions]
    | cons b rest' =>
      rw [List.pairwise_cons] at h
      simp only [uniquePositions]
      split
      · exact ih h.2
      · rename_i hab
        rw [List.pairwise_cons]
        refine ⟨fun x hx => ?_, ih h.2⟩
        have hab' : Position.lt a b = true :=
          lt_of_le_ne a b (h.1 b (List.mem_cons_self _ _)) hab
        rcases List.mem_cons.mp (mem_uniquePositions x _ hx) with hx | hx
        · rw [hx]; exact hab'
        · exact lt_of_lt_le a b x hab' ((List.pairwise_cons.mp h.2).1 x hx)

theorem formula_refs_strict (E : Env) (v : String) :
    (Formula.GetReferencedCells E v).Pairwise (fun a b => Position.lt a b = true) :=
  uniquePositions_strict _ (sortPositions_sorted _)

theorem formula_refs_mem (E : Env) (v : String) (q : Position) :
    q ∈ Formula.GetReferencedCells E v ↔ (q ∈ E.getCells v ∧ q.IsValid = true) := by
  unfold Formula.GetReferencedCells
  constructor
  · intro h
    have h1 := mem_uniquePositions _ _ h
    rw [mem_sortPositions] at h1
    exact List.mem_filter.mp h1
  · intro h
    apply uniquePositions_mem
    rw [mem_sortPositions]
    exact List.mem_filter.mpr h

/-- C12: the list `GetReferencedCells()` of a cell holding a formula is strictly increasing in
the order of positions, hence without repetition, and its members are exactly the valid
positions among those of the formula; for a cell holding the empty content or a text it is
the empty list; the cell set to `=A1+A2` returns `[A1, A2]`. -/
theorem C12_referenced_cells_sorted (E : Env) (v t : String) (k : Option Num)
    (refs refd : List Nat) :
    (∃ l, Cell.GetReferencedCells E ⟨some (Impl.formula v t k), refs, refd⟩ = some l ∧
      l.Pairwise (fun a b => Position.lt a b = true) ∧ l.Nodup ∧
      ∀ q, q ∈ l ↔ (q ∈ E.getCells v ∧ q.IsValid = true)) ∧
    Cell.GetReferencedCells E ⟨some Impl.empty, refs, refd⟩ = some [] ∧
    Cell.GetReferencedCells E ⟨some (Impl.text v t), refs, refd⟩ = some [] ∧
    (runOps Demo.env 5 Sheet.empty [Op.set C1 "=A1+A2"]).bind
      (fun r => r.1.GetReferencedCells Demo.env C1) = some [A1, A2] := by
  refine ⟨⟨Formula.GetReferencedCells E v, rfl, formula_refs_strict E v, ?_,
    formula_refs_mem E v⟩, rfl, rfl, rfl⟩
  refine (formula_refs_strict E v).imp ?_
  intro a b hlt hab
  rw [hab, lt_irrefl] at hlt
  exact absurd hlt (by decide)

/-! ## Counter safety -/

theorem linked_of_table (E : Env) (s s' : Sheet) (h : s.Linked E) (h1 : s'.sheet_ = s.sheet_)
    (h2 : s'.heap = s.heap) : s'.Linked E := by
  unfold Sheet.Linked Sheet.PointersLive Sheet.find Sheet.cell at *
  rw [h1, h2]
  exact h

theorem refersTo_of_impl (E : Env) (s : Sheet) (a b : Position) (ia : Nat) (impl : Impl)
    (ha : s.find a = some ia) (hi : (s.cell ia).impl_ = some impl)
    (hb : b ∈ impl.GetReferencedCells E) : s.RefersTo E a b :=
  ⟨impl.GetReferencedCells E, by
    simp [Sheet.GetReferencedCells, ha, Cell.GetReferencedCells, hi], hb⟩

theorem ClearCell_linked (E : Env) (s : Sheet) (p : Position) (hs : s.Linked E)
    (hun : ∀ a, ¬ s.RefersTo E a p) : (ClearCell s p).st.Linked E := by
  rcases ClearCell_sheet s p with h | h
  · exact linked_of_table E s _ hs h (ClearCell_heap s p)
  · have hfind : ∀ q, (ClearCell s p).st.find q = if q = p then none else s.find q := by
      intro q
      simp only [Sheet.find, h, lookup_filter_ne]
    have hcell : ∀ i, (ClearCell s p).st.cell i = s.cell i := by
      intro i
      simp only [Sheet.cell, ClearCell_heap]
    have hkeep : ∀ q i, (ClearCell s p).st.find q = some i → s.find q = some i := by
      intro q i hq
      rw [hfind] at hq
      split at hq
      · cases hq
      · exact hq
    obtain ⟨h1, h2, h3⟩ := hs
    refine ⟨fun q i hq => ?_, fun a b i ha hb => h2 a b i (hkeep _ _ ha) (hkeep _ _ hb),
      fun a ia impl b ha hi hb => ?_⟩
    · rw [ClearCell_heap]
      exact h1 q i (hkeep _ _ hq)
    · rw [hcell] at hi
      have ha' := hkeep _ _ ha
      obtain ⟨ib, hib, hmem⟩ := h3 a ia impl b ha' hi hb
      have hbp : b ≠ p := fun e => hun a (e ▸ refersTo_of_impl E s a b ia impl ha' hi hb)
      refine ⟨ib, ?_, ?_⟩
      · rw [hfind, if_neg hbp]; exact hib
      · rw [hcell]; exact hmem

theorem reachKept_linked (E : Env) (s : Sheet) (h : ReachKept E s) : s.Linked E := by
  induction h with
  | empty => exact reachSet_linked E _ ReachSet.empty
  | set s p t fuel s' _ hset ih => exact SetCell_linked E fuel s p t s' ih hset
  | clear s p _ hun _ ih => exact ClearCell_linked E s p ih hun

/-- C15 (amended): in every sheet built from the empty sheet by `SetCell` calls that returned
normally and by `ClearCell` calls that returned normally on a position no stored cell refers
to, for every stored cell and every position `q` of its `GetReferencedCells()`, `GetCell(q)`
does not raise and is not null. -/
theorem C15_referenced_cells_exist (E : Env) (s : Sheet) (h : ReachKept E s) (a q : Position)
    (l : List Position) (hl : s.GetReferencedCells E a = some l) (hq : q ∈ l) :
    ∃ id, GetCell s q = Except.ok (some id) := by
  have hlinked := reachKept_linked E s h
  unfold Sheet.GetReferencedCells at hl
  cases ha : s.find a with
  | none => rw [ha] at hl; cases hl
  | some ia =>
    rw [ha] at hl
    simp only [Option.some_bind, Cell.GetReferencedCells] at hl
    cases hi : (s.cell ia).impl_ with
    | none => rw [hi] at hl; cases hl
    | some impl =>
      rw [hi] at hl
      simp only [Option.map_some', Option.some.injEq] at hl
      subst hl
      obtain ⟨ib, hib, _⟩ := hlinked.2.2 a ia impl q ha hi hq
      refine ⟨ib, ?_⟩
      unfold GetCell
      rw [refs_valid E impl q hq, hib]
      rfl

/-- C15 at a concrete input: after `SetCell(A1, "=B2")` on the empty sheet the list of the cell
at `A1` is `[B2]`, a cell is stored at `B2`, its text is empty and the printable size is
`(2, 2)`. -/
theorem C15_referenced_cells_exist_witness :
    ReachKept Demo.env (sheetAfter Demo.env 5 [Op.set A1 "=B2"]) ∧
    (sheetAfter Demo.env 5 [Op.set A1 "=B2"]).GetReferencedCells Demo.env A1 = some [B2] ∧
    (∃ id, GetCell (sheetAfter Demo.env 5 [Op.set A1 "=B2"]) B2 = Except.ok (some id)) ∧
    (sheetAfter Demo.env 5 [Op.set A1 "=B2"]).GetText B2 = some "" ∧
    GetPrintableSize (sheetAfter Demo.env 5 [Op.set A1 "=B2"]) = ⟨2, 2⟩ :=
  ⟨ReachKept.set Sheet.empty A1 "=B2" 5 _ ReachKept.empty rfl, rfl,
    C15_referenced_cells_exist Demo.env (sheetAfter Demo.env 5 [Op.set A1 "=B2"])
      (ReachKept.set Sheet.empty A1 "=B2" 5 _ ReachKept.empty rfl) A1 B2 [B2] rfl
      (List.mem_singleton.mpr rfl),
    rfl, rfl⟩

/-- C15 as stated fails: `SetCell(A1, "=B1")` and `ClearCell(B1)` return normally from the
empty sheet; afterwards the cell at `A1` still lists `B1` in `GetReferencedCells()` and
`GetCell(B1)` is null. -/
theorem C15_clear_leaves_reference_without_cell :
    (runOps Demo.env 5 Sheet.empty [Op.set A1 "=B1", Op.clear B1]).map
        (fun r => (r.2, r.1.find A1, r.1.GetReferencedCells Demo.env A1, GetCell r.1 B1))
      = some ([Status.ok, Status.ok], some 0, some [B1], Except.ok none) :=
  rfl

/-! ## Mutual-inverse adjacency -/

end Table
